import Mathlib

/-!
Verification of the broadcast-DRA auction library: value encoding, the
commitment-scheme backends, the audit ledger, the auction resolution
algorithm, the timed protocol session and the transcript audit.

Modelling conventions:
* Rust `f64` bid/collateral values are modelled as exact rationals (ℚ);
  `NaN`/infinities are not representable, and `f64::round` agrees with
  `round : ℚ → ℤ` on the non-negative domain the encoder accepts.
* A Rust panic (a failed `assert!`/`expect`) is modelled as `Option.none`;
  fallible computations therefore live in `Option`.
* Opaque 32-byte digests, curve points, scalars and proof blobs are
  modelled as natural numbers, with the cryptographic primitives
  (SHA-256, Ristretto compression, Pedersen commitment, range proofs)
  taken as abstract function parameters bundled in `CryptoPrims`:
  every theorem quantifies over them, so it holds whatever the real
  primitives compute.
* u64 indices and timestamps are modelled on ℕ: they index vectors or
  count recorded events, so they stay far below 2^64 and the machine
  arithmetic cannot wrap.
-/

namespace BroadcastDRA

/-- Protocol phases (protocol.rs, `Phase`). -/
inductive Phase where
  | commit
  | reveal
  | resolved
  deriving DecidableEq, Repr

/-- Participant identities (auction.rs, `ParticipantId`). The constructor
`shill` models `ParticipantId::False` (the name `false` would clash with
`Bool.false` in Lean). -/
inductive ParticipantId where
  | auctioneer
  | real (i : ℕ)
  | shill (j : ℕ)
  deriving DecidableEq, Repr

/-- Tie-break rank (auction.rs, `ParticipantId::tie_rank`). -/
def ParticipantId.tieRank : ParticipantId → ℕ
  | .auctioneer => 0
  | .real i => 1 + i
  | .shill j => 50000 + j

/-- Fixed-point scale for bid encodings (commitment.rs, `BID_SCALE`). -/
def BID_SCALE : ℚ := 1000000

/-- `BidEncoding::new` (commitment.rs lines 22-28): asserts that the bid is
finite and non-negative (`none` models the panic; non-finite values are not
representable in ℚ), then rounds `bid * BID_SCALE` to the nearest integer,
ties away from zero — which on the non-negative domain agrees with `round`. -/
def encodeBid (bid : ℚ) : Option ℤ :=
  if 0 ≤ bid then some (round (bid * BID_SCALE)) else none

/-- `BidEncoding::as_u64` (commitment.rs lines 38-49): asserts the encoded
value is non-negative and fits in a u64 (`none` models the panic). -/
def encAsU64 (e : ℤ) : Option ℕ :=
  if 0 ≤ e ∧ e < 2 ^ 64 then some e.toNat else none

/-- Audit receipt (commitment.rs, `AuditReceipt`). -/
structure AuditReceipt where
  index : ℕ
  root : ℕ
  entryHash : ℕ
  deriving DecidableEq, Repr

/-- Bulletproof auxiliary data (commitment.rs, `BulletproofProofData`);
the serialized proof and blinding scalar are opaque numbers. -/
structure BulletproofData where
  proof : ℕ
  blinding : ℕ
  rangeBits : ℕ
  deriving DecidableEq, Repr

/-- Opening of a commitment (commitment.rs, `Opening`). The Fischlin proof
transcript is modelled as an opaque blob. -/
structure Opening where
  bid : ℚ
  encoding : ℤ
  salt : ℕ
  mask : ℕ
  proof : Option ℕ
  auditReceipt : Option AuditReceipt
  bulletproof : Option BulletproofData
  deriving DecidableEq, Repr

/-- Abstract cryptographic primitives used by the commitment backends.
Each field stands for a concrete function of commitment.rs; theorems
quantify over this structure, so they hold for the real primitives. -/
structure CryptoPrims where
  /-- `hash_commitment`: SHA-256 of the domain tag, encoding, salt, mask. -/
  hashCommitment : ℤ → ℕ → ℕ → ℕ
  /-- `decompress_point`: `CompressedRistretto::decompress`, may fail. -/
  decompress : ℕ → Option ℕ
  /-- `RistrettoPoint::compress().to_bytes()`. -/
  compress : ℕ → ℕ
  /-- `pedersen_point(encoding, salt, mask)`. -/
  pedersenPoint : ℤ → ℕ → ℕ → ℕ
  /-- `verify_fischlin_proof` folded over its derived scalars: takes the
  decompressed commitment point, proof blob, encoding and salt. -/
  fischlinVerify : ℕ → ℕ → ℤ → ℕ → Bool
  /-- The commitment point `blind·G + msg·H` of `RealNonMalleableCommitment`,
  whose scalars are derived from the salt and the encoding. -/
  realNMPoint : ℤ → ℕ → ℕ
  /-- `build_fischlin_proof` folded over its derived scalars: takes the
  commitment point, encoding, salt and mask. -/
  fischlinProve : ℕ → ℤ → ℕ → ℕ → ℕ
  /-- `RangeProof::prove_single_with_rng`: value and blinding scalar to
  (range proof object, compressed commitment point). -/
  proveSingle : ℕ → ℕ → ℕ × ℕ
  /-- `RangeProof::to_bytes`. -/
  rangeProofToBytes : ℕ → ℕ
  /-- `RangeProof::from_bytes`, may fail. -/
  rangeProofFromBytes : ℕ → Option ℕ
  /-- `RangeProof::verify_single` against a compressed point and bit width. -/
  rangeVerify : ℕ → ℕ → ℕ → Bool
  /-- `PedersenGens::commit(value, blinding)` as a point. -/
  pedersenCommit : ℕ → ℕ → ℕ
  /-- `scalar_from_rng` seeded from the caller's randomness. -/
  scalarFromRng : ℕ → ℕ
  /-- `audit_entry_hash(commitment, opening)`: reads the commitment bytes,
  encoding, salt, mask and the optional proof blobs — not the receipt. -/
  auditEntryHash : ℕ → ℤ → ℕ → ℕ → Option ℕ → Option BulletproofData → ℕ
  /-- Blake3 chaining step of `aggregate_root`: tag, accumulator, entry. -/
  ledgerHash : ℕ → ℕ → ℕ → ℕ
  /-- The fixed `DRA-AUDIT-ROOT` domain tag. -/
  ledgerTag : ℕ

/-- `NonMalleableShaCommitment::commit` (commitment.rs lines 120-137): the
salt and mask are whatever the randomness source produced, passed here as
parameters. `none` models the panic of `BidEncoding::new`. -/
def shaCommit (hash : ℤ → ℕ → ℕ → ℕ) (bid : ℚ) (salt mask : ℕ) :
    Option (ℕ × Opening) :=
  (encodeBid bid).map fun e =>
    (hash e salt mask, ⟨bid, e, salt, mask, none, none, none⟩)

/-- `NonMalleableShaCommitment::verify` (commitment.rs lines 139-143):
re-encodes the claimed bid (panicking on out-of-domain bids), compares with
the stored encoding and recomputes the digest. -/
def shaVerify (hash : ℤ → ℕ → ℕ → ℕ) (c : ℕ) (o : Opening) : Option Bool :=
  (encodeBid o.bid).map fun e =>
    decide (e = o.encoding) && decide (c = hash e o.salt o.mask)

/-- `PedersenRistrettoCommitment::commit` (commitment.rs lines 150-167). -/
def pedersenCommitOp (P : CryptoPrims) (bid : ℚ) (salt mask : ℕ) :
    Option (ℕ × Opening) :=
  (encodeBid bid).map fun e =>
    (P.compress (P.pedersenPoint e salt mask),
     ⟨bid, e, salt, mask, none, none, none⟩)

/-- `PedersenRistrettoCommitment::verify` (commitment.rs lines 169-178). -/
def pedersenVerify (P : CryptoPrims) (c : ℕ) (o : Opening) : Option Bool :=
  (encodeBid o.bid).map fun e =>
    if e ≠ o.encoding then false
    else
      match P.decompress c with
      | none => false
      | some point => decide (point = P.pedersenPoint o.encoding o.salt o.mask)

/-- `RealNonMalleableCommitment::commit` (commitment.rs lines 185-205). -/
def realNMCommit (P : CryptoPrims) (bid : ℚ) (salt mask : ℕ) :
    Option (ℕ × Opening) :=
  (encodeBid bid).map fun e =>
    (P.compress (P.realNMPoint e salt),
     ⟨bid, e, salt, mask,
      some (P.fischlinProve (P.realNMPoint e salt) e salt mask), none, none⟩)

/-- `RealNonMalleableCommitment::verify` (commitment.rs lines 207-224). -/
def realNMVerify (P : CryptoPrims) (c : ℕ) (o : Opening) : Option Bool :=
  (encodeBid o.bid).map fun e =>
    if e ≠ o.encoding then false
    else
      match o.proof with
      | none => false
      | some pr =>
          match P.decompress c with
          | none => false
          | some point => P.fischlinVerify point pr o.encoding o.salt

/-- `BulletproofsCommitment::commit` (commitment.rs lines 264-295): encodes
the bid, maps it into u64 (both `none` cases model panics), produces the
range proof and the compressed commitment point. -/
def bulletproofCommit (P : CryptoPrims) (rangeBits : ℕ) (bid : ℚ) (rng : ℕ) :
    Option (ℕ × Opening) :=
  (encodeBid bid).bind fun e =>
    (encAsU64 e).map fun v =>
      let blinding := P.scalarFromRng rng
      let pr := P.proveSingle v blinding
      (pr.2,
       ⟨bid, e, 0, 0, none, none,
        some ⟨P.rangeProofToBytes pr.1, blinding, rangeBits⟩⟩)

/-- `BulletproofsCommitment::verify` (commitment.rs lines 297-331): encoding
check, proof presence, decompression, proof deserialization, range-proof
verification, then the cross-check that the Pedersen commitment of the
disclosed value and blinding equals the point. The `encAsU64` step models
the `as_u64` panic on encodings outside u64. -/
def bulletproofVerify (P : CryptoPrims) (c : ℕ) (o : Opening) : Option Bool :=
  (encodeBid o.bid).bind fun e =>
    if e ≠ o.encoding then some false
    else
      match o.bulletproof with
      | none => some false
      | some bp =>
          match P.decompress c with
          | none => some false
          | some point =>
              match P.rangeProofFromBytes bp.proof with
              | none => some false
              | some pr =>
                  if P.rangeVerify pr c bp.rangeBits = false then some false
                  else
                    (encAsU64 o.encoding).map fun v =>
                      decide (P.pedersenCommit v bp.blinding = point)

/-- `aggregate_root` (commitment.rs lines 367-377): left fold of the chained
hash over the entries, starting from the all-zero root. -/
def aggregateRoot (H : ℕ → ℕ → ℕ → ℕ) (tag : ℕ) (entries : List ℕ) : ℕ :=
  entries.foldl (fun acc entry => H tag acc entry) 0

/-- `AuditLedger::log_entry` (commitment.rs lines 346-355): appends the
entry and returns the new entries list together with the receipt. The
`Arc<Mutex<_>>` cell is modelled by explicit state passing. -/
def logEntry (H : ℕ → ℕ → ℕ → ℕ) (tag : ℕ) (entries : List ℕ) (h : ℕ) :
    List ℕ × AuditReceipt :=
  let entries' := entries ++ [h]
  (entries', ⟨entries'.length - 1, aggregateRoot H tag entries', h⟩)

/-- `AuditLedger::verify` (commitment.rs lines 357-364). -/
def ledgerVerify (H : ℕ → ℕ → ℕ → ℕ) (tag : ℕ) (entries : List ℕ)
    (r : AuditReceipt) : Bool :=
  decide (r.index < entries.length) &&
    decide (entries.getD r.index 0 = r.entryHash) &&
    decide (aggregateRoot H tag (entries.take (r.index + 1)) = r.root)

/-- `AuditedNonMalleableCommitment::commit` (commitment.rs lines 404-410):
delegates to the bulletproof backend (with its default 64 range bits), logs
the audit entry hash of the produced commitment and opening, and attaches
the receipt to the opening. -/
def auditedCommit (P : CryptoPrims) (entries : List ℕ) (bid : ℚ) (rng : ℕ) :
    Option (List ℕ × ℕ × Opening) :=
  (bulletproofCommit P 64 bid rng).map fun co =>
    let eh := P.auditEntryHash co.1 co.2.encoding co.2.salt co.2.mask
      co.2.proof co.2.bulletproof
    let logged := logEntry P.ledgerHash P.ledgerTag entries eh
    (logged.1, co.1, { co.2 with auditReceipt := some logged.2 })

/-- `AuditedNonMalleableCommitment::verify` (commitment.rs lines 412-419):
requires the receipt, inner bulletproof verification, a fresh recomputation
of the entry hash, and ledger replay. -/
def auditedVerify (P : CryptoPrims) (entries : List ℕ) (c : ℕ) (o : Opening) :
    Option Bool :=
  match o.auditReceipt with
  | none => some false
  | some r =>
      (bulletproofVerify P c o).map fun inner =>
        inner &&
          decide (r.entryHash =
            P.auditEntryHash c o.encoding o.salt o.mask o.proof o.bulletproof) &&
          ledgerVerify P.ledgerHash P.ledgerTag entries r

/-! ### Auction resolution (auction.rs) -/

/-- A commitment scheme as consumed by the auction run: `commit` threads an
abstract randomness state and may panic (`none`), `verify` may panic. This
is the `CommitmentScheme` trait of commitment.rs. -/
structure Scheme where
  commit : ℚ → ℕ → Option ((ℕ × Opening) × ℕ)
  verify : ℕ → Opening → Option Bool

/-- `FalseBid` (auction.rs lines 34-38). -/
structure FalseBid where
  bid : ℚ
  reveal : Bool
  deriving DecidableEq, Repr

/-- `CommitmentRecord` (auction.rs lines 25-32). -/
structure CommitmentRecord where
  id : ParticipantId
  commitment : ℕ
  opening : Opening
  postedCollateral : ℚ
  willReveal : Bool
  deriving DecidableEq, Repr

/-- `AuctionOutcome` (auction.rs lines 40-51). -/
structure AuctionOutcome where
  reserve : ℚ
  collateral : ℚ
  winner : Option ParticipantId
  winningBid : ℚ
  payment : ℚ
  transferredCollateral : ℚ
  forfeitedToAuctioneer : ℚ
  auctioneerPenalty : ℚ
  validBids : List (ParticipantId × ℚ)
  deriving DecidableEq, Repr

/-- Reveal intent of real buyer `i` (auction.rs lines 161-163):
`real_reveals.map(|r| r.get(i).copied().unwrap_or(true)).unwrap_or(true)`. -/
def willRevealReal (realReveals : Option (List Bool)) (i : ℕ) : Bool :=
  match realReveals with
  | none => true
  | some r => (r.get? i).getD true

/-- Commitment phase over the honest valuations (auction.rs lines 154-176),
threading the randomness state; `none` models a panic inside `commit`.
Transcript events carry no information the resolution reads, so they are
elided here. -/
def commitRealRecords (S : Scheme) (coll : ℚ) (realReveals : Option (List Bool)) :
    List ℚ → ℕ → ℕ → Option (List CommitmentRecord × ℕ)
  | [], _, rng => some ([], rng)
  | v :: vs, i, rng =>
      match S.commit v rng with
      | none => none
      | some (co, rng') =>
          match commitRealRecords S coll realReveals vs (i + 1) rng' with
          | none => none
          | some (rest, rng'') =>
              some (⟨.real i, co.1, co.2, coll, willRevealReal realReveals i⟩ :: rest,
                    rng'')

/-- Commitment phase over the auctioneer-inserted bids (auction.rs
lines 177-197). -/
def commitFalseRecords (S : Scheme) (coll : ℚ) :
    List FalseBid → ℕ → ℕ → Option (List CommitmentRecord × ℕ)
  | [], _, rng => some ([], rng)
  | fb :: fbs, j, rng =>
      match S.commit fb.bid rng with
      | none => none
      | some (co, rng') =>
          match commitFalseRecords S coll fbs (j + 1) rng' with
          | none => none
          | some (rest, rng'') =>
              some (⟨.shill j, co.1, co.2, coll, fb.reveal⟩ :: rest, rng'')

/-- Revelation phase (auction.rs lines 210-244): a record enters the valid
set iff its reveal intent is set and the scheme verifies its opening
(short-circuit: `verify` is only called — and can only panic — when
`will_reveal` holds); everyone else forfeits their posted collateral. -/
def revealPhase (S : Scheme) :
    List CommitmentRecord → Option (List (ParticipantId × ℚ) × ℚ)
  | [] => some ([], 0)
  | c :: rest =>
      if c.willReveal then
        match S.verify c.commitment c.opening with
        | none => none
        | some ok =>
            match revealPhase S rest with
            | none => none
            | some (vb, inv) =>
                if ok then some ((c.id, c.opening.bid) :: vb, inv)
                else some (vb, inv + c.postedCollateral)
      else
        match revealPhase S rest with
        | none => none
        | some (vb, inv) => some (vb, inv + c.postedCollateral)

/-- One step of the highest/second scan (auction.rs lines 262-278). -/
def hsStep (acc : Option (ParticipantId × ℚ) × Option ℚ) (x : ParticipantId × ℚ) :
    Option (ParticipantId × ℚ) × Option ℚ :=
  match acc with
  | (none, second) => (some x, second)
  | (some (hid, hbid), second) =>
      if hbid < x.2 ∨ (x.2 = hbid ∧ x.1.tieRank < hid.tieRank) then
        (some x, some hbid)
      else if x.2 = hbid then
        (some (hid, hbid),
         if (match second with | none => true | some s => decide (s < x.2)) then
           some x.2
         else second)
      else if (match second with | none => true | some s => decide (s < x.2)) &&
              decide (x.2 < hbid) then
        (some (hid, hbid), some x.2)
      else (some (hid, hbid), second)

/-- The resolution scan over the valid bids (auction.rs lines 260-278). -/
def selectHighest (validBids : List (ParticipantId × ℚ)) :
    Option (ParticipantId × ℚ) × Option ℚ :=
  validBids.foldl hsStep (none, none)

/-- Assembling the outcome from the scan (auction.rs lines 280-304). -/
def finishOutcome (reserve collateral : ℚ) (vb : List (ParticipantId × ℚ))
    (inv : ℚ) : AuctionOutcome :=
  match selectHighest vb with
  | (none, _) => ⟨reserve, collateral, none, 0, 0, 0, inv, 0, vb⟩
  | (some (id, bid), second) =>
      if reserve < bid then
        ⟨reserve, collateral, some id, bid, max reserve (second.getD 0),
         inv, 0, 0, vb⟩
      else
        ⟨reserve, collateral, none, bid, 0, inv, 0, 0, vb⟩

/-- `run_with_false_bids_using_scheme_with_transcript` (auction.rs
lines 128-307), restricted to the outcome it produces. The reserve and the
uniform collateral are the values the surrounding `PublicBroadcastDRA`
derives from its distribution (spec §6: supplied as plain inputs); the
`validate_inputs` panic on zero buyers is the leading `none` (the α-check
concerns only the distribution collaborator and can only turn a run into a
panic, never change a produced outcome). -/
def runAuction (S : Scheme) (reserve collateral : ℚ) (valuations : List ℚ)
    (falseBids : List FalseBid) (realReveals : Option (List Bool)) (rng : ℕ) :
    Option AuctionOutcome :=
  if valuations = [] then none
  else
    match commitRealRecords S collateral realReveals valuations 0 rng with
    | none => none
    | some (realRecs, rng1) =>
        match commitFalseRecords S collateral falseBids 0 rng1 with
        | none => none
        | some (falseRecs, _) =>
            match revealPhase S (realRecs ++ falseRecs) with
            | none => none
            | some (vb, inv) => some (finishOutcome reserve collateral vb inv)

/-! ### Specification-side definitions for the resolution claims -/

/-- Maximum of a list of rationals (used only to state what the resolution
scan computes). -/
def listMax : List ℚ → ℚ
  | [] => 0
  | [b] => b
  | b :: c :: rest => max b (listMax (c :: rest))

/-- The second-highest bid, counting multiplicity: the maximum after
removing one occurrence of the maximum, taken as 0 when only one bid
exists. This follows the claim's words, to be compared with the scan. -/
def secondHighest (bids : List ℚ) : ℚ :=
  let rest := bids.erase (listMax bids)
  if rest = [] then 0 else listMax rest

/-! ### Protocol session state machine (protocol.rs) and transcript audit -/

/-- `PhaseTimings` (auction.rs lines 430-434). -/
structure PhaseTimings where
  commitDeadline : ℕ
  revealDeadline : ℕ
  deriving DecidableEq, Repr

/-- `PhaseTransitionReason` (auction.rs lines 445-449). -/
inductive PhaseTransitionReason where
  | manual
  | deadline
  deriving DecidableEq, Repr

/-- `BroadcastMessage` (auction.rs lines 451-465). -/
inductive BroadcastMessage where
  | commitmentPublished
  | revealPublished (success : Bool)
  | phaseTransition (phase : Phase) (reason : PhaseTransitionReason)
  | timeout (phase : Phase) (target : ParticipantId)
  deriving DecidableEq, Repr

/-- `BroadcastEvent` (auction.rs lines 467-472). -/
structure BroadcastEvent where
  timestamp : ℕ
  sender : ParticipantId
  message : BroadcastMessage
  deriving DecidableEq, Repr

/-- `CommitmentEvent` (auction.rs lines 415-420). -/
structure CommitmentEvent where
  participant : ParticipantId
  commitment : ℕ
  timestamp : ℕ
  deriving DecidableEq, Repr

/-- `RevealEvent` (auction.rs lines 422-428). -/
structure RevealEvent where
  participant : ParticipantId
  revealed : Bool
  opening : Option Opening
  timestamp : ℕ
  deriving DecidableEq, Repr

/-- `Transcript` (auction.rs lines 474-481). -/
structure Transcript where
  commitments : List CommitmentEvent
  reveals : List RevealEvent
  broadcasts : List BroadcastEvent
  timings : PhaseTimings
  outcome : Option AuctionOutcome
  deriving DecidableEq, Repr

/-- Labels of the `UnorderedEvents` static strings (audit errors). -/
inductive EventKind where
  | commitments
  | reveals
  | broadcasts
  deriving DecidableEq, Repr

/-- `AuditError` (auction.rs lines 483-495). -/
inductive AuditError where
  | missingOutcome
  | missingTimings
  | revealWithoutCommit (p : ParticipantId)
  | badOpening (p : ParticipantId)
  | deadlineViolation (p : ParticipantId) (phase : Phase) (timestamp : ℕ)
  | unorderedEvents (kind : EventKind)
  deriving DecidableEq, Repr

/-- `ProtocolError` (protocol.rs lines 19-28). -/
inductive ProtocolError where
  | wrongPhase
  | duplicateCommit (p : ParticipantId)
  | duplicateReveal (p : ParticipantId)
  | missingCommit (p : ParticipantId)
  | clockRewind (requested current : ℕ)
  | deadlineExceeded (phase : Phase)
  | auditFailure
  deriving DecidableEq, Repr

/-- Scan of the commit events (audit_transcript, auction.rs lines 511-526):
checks timestamp ordering and the commit deadline, and builds the
participant → (commitment, timestamp) map with `HashMap::insert`
overwrite semantics. -/
def auditCommitEvents (t : PhaseTimings) :
    List CommitmentEvent → ℕ → (ParticipantId → Option (ℕ × ℕ)) →
    Except AuditError (ParticipantId → Option (ℕ × ℕ))
  | [], _, m => .ok m
  | c :: rest, lastTs, m =>
      if c.timestamp < lastTs then .error (.unorderedEvents .commitments)
      else if t.commitDeadline < c.timestamp then
        .error (.deadlineViolation c.participant .commit c.timestamp)
      else
        auditCommitEvents t rest c.timestamp
          (fun p => if p = c.participant then some (c.commitment, c.timestamp)
                    else m p)

/-- Scan of the reveal events (audit_transcript, auction.rs lines 527-564);
`none` models a panic inside `scheme.verify`. -/
def auditReveals (S : Scheme) (t : PhaseTimings)
    (m : ParticipantId → Option (ℕ × ℕ)) (outcome : AuctionOutcome) :
    List RevealEvent → ℕ → Option (Except AuditError Unit)
  | [], _ => some (.ok ())
  | r :: rest, lastTs =>
      if r.timestamp < lastTs then some (.error (.unorderedEvents .reveals))
      else if t.revealDeadline < r.timestamp then
        some (.error (.deadlineViolation r.participant .reveal r.timestamp))
      else
        match m r.participant with
        | none => some (.error (.revealWithoutCommit r.participant))
        | some ct =>
            if r.timestamp < ct.2 then
              some (.error (.deadlineViolation r.participant .commit r.timestamp))
            else if r.revealed then
              match r.opening with
              | none => some (.error (.badOpening r.participant))
              | some o =>
                  match S.verify ct.1 o with
                  | none => none
                  | some ok =>
                      if ok = false then some (.error (.badOpening r.participant))
                      else if outcome.validBids.any
                          (fun pb => pb.1 = r.participant) then
                        auditReveals S t m outcome rest r.timestamp
                      else some (.error (.badOpening r.participant))
            else auditReveals S t m outcome rest r.timestamp

/-- Scan of the broadcast events (audit_transcript, auction.rs
lines 565-625). -/
def auditBroadcasts (t : PhaseTimings) :
    List BroadcastEvent → ℕ → Except AuditError Unit
  | [], _ => .ok ()
  | e :: rest, lastTs =>
      if e.timestamp < lastTs then .error (.unorderedEvents .broadcasts)
      else
        match e.message with
        | .commitmentPublished =>
            if t.commitDeadline < e.timestamp then
              .error (.deadlineViolation e.sender .commit e.timestamp)
            else auditBroadcasts t rest e.timestamp
        | .revealPublished _ =>
            if t.revealDeadline < e.timestamp then
              .error (.deadlineViolation e.sender .reveal e.timestamp)
            else auditBroadcasts t rest e.timestamp
        | .timeout phase target =>
            if e.timestamp <
                (match phase with
                 | .commit => t.commitDeadline
                 | _ => t.revealDeadline) then
              .error (.deadlineViolation target phase e.timestamp)
            else auditBroadcasts t rest e.timestamp
        | .phaseTransition phase _ =>
            match phase with
            | .commit => auditBroadcasts t rest e.timestamp
            | .reveal =>
                if e.timestamp < t.commitDeadline then
                  .error (.deadlineViolation e.sender .reveal e.timestamp)
                else auditBroadcasts t rest e.timestamp
            | .resolved =>
                if e.timestamp < t.revealDeadline then
                  .error (.deadlineViolation e.sender .resolved e.timestamp)
                else auditBroadcasts t rest e.timestamp

/-- `audit_transcript` (auction.rs lines 499-627); `none` models a panic
inside `scheme.verify`. -/
def auditTranscript (S : Scheme) (tr : Transcript) :
    Option (Except AuditError Unit) :=
  match tr.outcome with
  | none => some (.error .missingOutcome)
  | some outcome =>
      if tr.timings.revealDeadline < tr.timings.commitDeadline then
        some (.error .missingTimings)
      else
        match auditCommitEvents tr.timings tr.commitments 0 (fun _ => none) with
        | .error e => some (.error e)
        | .ok m =>
            match auditReveals S tr.timings m outcome tr.reveals
                tr.timings.commitDeadline with
            | none => none
            | some (.error e) => some (.error e)
            | some (.ok ()) =>
                match auditBroadcasts tr.timings tr.broadcasts 0 with
                | .error e => some (.error e)
                | .ok () => some (.ok ())

/-- `ProtocolSession` state (protocol.rs lines 31-43). The distribution is
represented by the reserve it resolves to and the collateral function
`n ↦ collateral_requirement(n, dist, α)` (spec §6: the core consumes these
as plain inputs); the subscriber list and network log are write-only
observability data the session's control flow never reads, so they are
elided. -/
structure Session where
  phase : Phase
  schedule : PhaseTimings
  currentTime : ℕ
  commitments : List CommitmentRecord
  tCommitments : List CommitmentEvent
  tReveals : List RevealEvent
  broadcasts : List BroadcastEvent
  rng : ℕ
  reserve : ℚ
  collateralFn : ℕ → ℚ

/-- `ProtocolSession::new` (protocol.rs lines 46-78). -/
def mkSession (schedule : PhaseTimings) (seed : ℕ) (reserve : ℚ)
    (collateralFn : ℕ → ℚ) : Session :=
  ⟨.commit, schedule, 0, [], [], [], [], seed, reserve, collateralFn⟩

/-- `log_broadcast` (protocol.rs lines 157-171); the payload delivery to the
network log is elided (it never affects control flow). -/
def logBroadcast (s : Session) (sender : ParticipantId)
    (msg : BroadcastMessage) : Session :=
  { s with broadcasts := s.broadcasts ++ [⟨s.currentTime, sender, msg⟩] }

/-- `transition_to_phase` (protocol.rs lines 190-211). -/
def transitionToPhase (s : Session) (next : Phase)
    (reason : PhaseTransitionReason) : Except ProtocolError Session :=
  match s.phase, next with
  | .commit, .reveal =>
      .ok (logBroadcast { s with phase := next } .auctioneer
        (.phaseTransition next reason))
  | .reveal, .resolved =>
      .ok (logBroadcast { s with phase := next } .auctioneer
        (.phaseTransition next reason))
  | .reveal, .reveal => .ok s
  | .resolved, .resolved => .ok s
  | _, _ => .error .wrongPhase

/-- `ProtocolSession::advance_to` (protocol.rs lines 88-103). -/
def advanceTo (s : Session) (now : ℕ) : Except ProtocolError Session :=
  if now < s.currentTime then .error (.clockRewind now s.currentTime)
  else
    let s1 := { s with currentTime := now }
    match (if s1.phase = .commit ∧ s1.schedule.commitDeadline ≤ now then
             transitionToPhase s1 .reveal .deadline
           else .ok s1) with
    | .error e => .error e
    | .ok s2 =>
        if s2.phase = .reveal ∧ s2.schedule.revealDeadline ≤ now then
          transitionToPhase s2 .resolved .deadline
        else .ok s2

/-- `commit_internal` (protocol.rs lines 124-155); the outer `Option`
models a panic inside `scheme.commit`. -/
def commitInternal (S : Scheme) (s : Session) (id : ParticipantId) (bid : ℚ)
    (collateral : ℚ) (willReveal : Bool) :
    Option (Except ProtocolError Session) :=
  if s.phase ≠ .commit then some (.error .wrongPhase)
  else if s.schedule.commitDeadline ≤ s.currentTime then
    some (.error (.deadlineExceeded .commit))
  else if s.commitments.any (fun r => r.id = id) then
    some (.error (.duplicateCommit id))
  else
    match S.commit bid s.rng with
    | none => none
    | some (co, rng') =>
        let s1 := { s with
          rng := rng',
          tCommitments := s.tCommitments ++ [⟨id, co.1, s.currentTime⟩] }
        let s2 := logBroadcast s1 id .commitmentPublished
        some (.ok { s2 with commitments := s2.commitments ++
          [⟨id, co.1, co.2, collateral, willReveal⟩] })

/-- `ProtocolSession::commit_real` (protocol.rs lines 105-112). -/
def commitRealOp (S : Scheme) (s : Session) (i : ℕ) (bid collateral : ℚ) :
    Option (Except ProtocolError Session) :=
  commitInternal S s (.real i) bid collateral true

/-- `ProtocolSession::commit_false` (protocol.rs lines 114-122). -/
def commitFalseOp (S : Scheme) (s : Session) (j : ℕ) (bid collateral : ℚ)
    (reveal : Bool) : Option (Except ProtocolError Session) :=
  commitInternal S s (.shill j) bid collateral reveal

/-- `ProtocolSession::end_commit_phase` (protocol.rs lines 213-218). -/
def endCommitPhase (s : Session) : Except ProtocolError Session :=
  if s.phase ≠ .commit then .error .wrongPhase
  else transitionToPhase s .reveal .manual

/-- `ProtocolSession::reveal` (protocol.rs lines 220-259); the outer
`Option` models a panic inside `scheme.verify`. -/
def revealOp (S : Scheme) (s : Session) (id : ParticipantId) :
    Option (Except ProtocolError Session) :=
  if s.phase ≠ .reveal then some (.error .wrongPhase)
  else if s.schedule.revealDeadline ≤ s.currentTime then
    some (.error (.deadlineExceeded .reveal))
  else
    match s.commitments.find? (fun r => r.id = id) with
    | none => some (.error (.missingCommit id))
    | some rec =>
        if s.tReveals.any (fun r => r.participant = id) then
          some (.error (.duplicateReveal id))
        else
          match S.verify rec.commitment rec.opening with
          | none => none
          | some ok =>
              let s1 := { s with tReveals := s.tReveals ++
                [⟨id, ok, if ok then some rec.opening else none,
                  s.currentTime⟩] }
              some (.ok (logBroadcast s1 rec.id (.revealPublished ok)))

/-- Reveal flags applied to the committed records (protocol.rs
lines 269-282). -/
def applyReveals (reveals : List RevealEvent) (recs : List CommitmentRecord) :
    List CommitmentRecord :=
  recs.map fun r =>
    match reveals.find? (fun rev => rev.participant = r.id) with
    | some rev => { r with willReveal := rev.revealed }
    | none => { r with willReveal := false }

/-- The committed identities with no reveal event (protocol.rs
lines 269-282). -/
def missingReveals (reveals : List RevealEvent)
    (recs : List CommitmentRecord) : List ParticipantId :=
  (recs.filter fun r =>
    (reveals.find? (fun rev => rev.participant = r.id)).isNone).map (·.id)

/-- Timeout bookkeeping for the missing identities (protocol.rs
lines 283-298): per identity, a non-revealed reveal event followed by a
timeout broadcast, at the session's current time. -/
def recordTimeouts (s : Session) (missing : List ParticipantId) : Session :=
  missing.foldl
    (fun acc pid =>
      logBroadcast
        { acc with tReveals := acc.tReveals ++ [⟨pid, false, none, acc.currentTime⟩] }
        .auctioneer (.timeout .reveal pid))
    s

/-- `ProtocolSession::end_reveal_and_resolve` (protocol.rs lines 261-337).
`rngE` stands for the entropy `StdRng::from_entropy()` draws for the inner
auction re-run; `none` models a panic (inside `scheme.commit`,
`scheme.verify` or `validate_inputs`). -/
def endRevealAndResolve (S : Scheme) (s : Session) (rngE : ℕ) :
    Option (Except ProtocolError (AuctionOutcome × Transcript)) :=
  if s.phase ≠ .reveal then some (.error .wrongPhase)
  else
    match transitionToPhase s .resolved .manual with
    | .error e => some (.error e)
    | .ok s1 =>
        let updated := applyReveals s1.tReveals s1.commitments
        let s2 := recordTimeouts s1 (missingReveals s1.tReveals s1.commitments)
        let realBids := updated.filterMap fun r =>
          match r.id with | .real _ => some r.opening.bid | _ => none
        let realFlags := updated.filterMap fun r =>
          match r.id with | .real _ => some r.willReveal | _ => none
        let falseBids : List FalseBid := updated.filterMap fun r =>
          match r.id with
          | .shill _ => some ⟨r.opening.bid, r.willReveal⟩
          | _ => none
        match runAuction S s.reserve (s.collateralFn realBids.length) realBids
            falseBids (some realFlags) rngE with
        | none => none
        | some outcome =>
            let tr : Transcript :=
              ⟨s2.tCommitments, s2.tReveals, s2.broadcasts, s.schedule,
               some outcome⟩
            match auditTranscript S tr with
            | none => none
            | some (.error _) => some (.error .auditFailure)
            | some (.ok ()) => some (.ok (outcome, tr))

/-- Session states reachable through the public operation set
(`new`, `advance_to`, `commit_real`, `commit_false`, `end_commit_phase`,
`reveal`), following only successful calls — a failed call leaves the
caller with the previous state. -/
inductive Reachable (S : Scheme) : Session → Prop where
  | init (schedule : PhaseTimings) (seed : ℕ) (reserve : ℚ)
      (collateralFn : ℕ → ℚ) :
      Reachable S (mkSession schedule seed reserve collateralFn)
  | advance (s : Session) (now : ℕ) (s' : Session) :
      Reachable S s → advanceTo s now = .ok s' → Reachable S s'
  | commitReal (s : Session) (i : ℕ) (bid collateral : ℚ) (s' : Session) :
      Reachable S s → commitRealOp S s i bid collateral = some (.ok s') →
      Reachable S s'
  | commitFalse (s : Session) (j : ℕ) (bid collateral : ℚ) (reveal : Bool)
      (s' : Session) :
      Reachable S s →
      commitFalseOp S s j bid collateral reveal = some (.ok s') →
      Reachable S s'
  | endCommit (s : Session) (s' : Session) :
      Reachable S s → endCommitPhase s = .ok s' → Reachable S s'
  | reveal (s : Session) (id : ParticipantId) (s' : Session) :
      Reachable S s → revealOp S s id = some (.ok s') → Reachable S s'

/-- Whether a result of `endRevealAndResolve` is a success. -/
def isOkResult : Option (Except ProtocolError (AuctionOutcome × Transcript)) → Bool
  | some (.ok _) => true
  | _ => false

/-- A broadcast event that the audit's deadline checks necessarily reject
(auction.rs lines 571-624): a commitment published after the commit
deadline, a reveal published after the reveal deadline, a timeout before
the deadline of its phase, or a phase transition before the deadline of
the phase it closes. -/
def violatesDeadline (t : PhaseTimings) (e : BroadcastEvent) : Prop :=
  match e.message with
  | .commitmentPublished => t.commitDeadline < e.timestamp
  | .revealPublished _ => t.revealDeadline < e.timestamp
  | .timeout phase _ =>
      e.timestamp < (match phase with
        | .commit => t.commitDeadline
        | _ => t.revealDeadline)
  | .phaseTransition phase _ =>
      match phase with
      | .commit => False
      | .reveal => e.timestamp < t.commitDeadline
      | .resolved => e.timestamp < t.revealDeadline

/-- Invariants of the reachable session states: in Commit the clock is
before the commit deadline (or still 0); any commitment forces a positive
commit deadline; and in Reveal with a commitment, either the clock is
before the reveal deadline, or the broadcast log already holds a Reveal
phase-transition event stamped before the commit deadline. -/
def SessionInv (s : Session) : Prop :=
  (s.phase = .commit →
    s.currentTime < s.schedule.commitDeadline ∨ s.currentTime = 0) ∧
  (s.commitments ≠ [] → 1 ≤ s.schedule.commitDeadline) ∧
  (s.phase = .reveal → s.commitments ≠ [] →
    s.currentTime < s.schedule.revealDeadline ∨
    ∃ e ∈ s.broadcasts,
      (∃ r, e.message = .phaseTransition .reveal r) ∧
      e.timestamp < s.schedule.commitDeadline)

/-! ### Concrete instantiations used to evaluate theorems on closed inputs -/

/-- Completeness contracts of the abstract curve/range-proof primitives,
true of the real implementations: decompression inverts compression,
`prove_single` returns the Pedersen commitment point of (value, blinding),
honestly produced range proofs verify, proof serialization round-trips, and
honestly produced Fischlin proofs verify. -/
structure GroupOk (P : CryptoPrims) : Prop where
  decompress_compress : ∀ p, P.decompress (P.compress p) = some p
  prove_point : ∀ v b, (P.proveSingle v b).2 = P.compress (P.pedersenCommit v b)
  range_complete : ∀ v b bits,
    P.rangeVerify (P.proveSingle v b).1 (P.proveSingle v b).2 bits = true
  proof_bytes : ∀ pr, P.rangeProofFromBytes (P.rangeProofToBytes pr) = some pr
  fischlin_complete : ∀ e salt mask,
    P.fischlinVerify (P.realNMPoint e salt)
      (P.fischlinProve (P.realNMPoint e salt) e salt mask) e salt = true

/-- A concrete instantiation of the abstract primitives, used to evaluate
the theorems on closed inputs. -/
def trivPrims : CryptoPrims where
  hashCommitment := fun e s m => e.natAbs + s + m
  decompress := some
  compress := id
  pedersenPoint := fun e s m => e.natAbs + s + m
  fischlinVerify := fun _ _ _ _ => true
  realNMPoint := fun e s => e.natAbs + s
  fischlinProve := fun _ _ _ _ => 0
  proveSingle := fun v b => (Nat.pair v b, Nat.pair v b)
  rangeProofToBytes := id
  rangeProofFromBytes := some
  rangeVerify := fun _ _ _ => true
  pedersenCommit := Nat.pair
  scalarFromRng := id
  auditEntryHash := fun c e s m _ _ => c + e.natAbs + s + m
  ledgerHash := fun tag acc entry => tag + 3 * acc + 5 * entry
  ledgerTag := 7

/-- A concrete stand-in for SHA-256 over (encoding, salt, mask), used only
to evaluate theorems on closed inputs. -/
def hashC : ℤ → ℕ → ℕ → ℕ := fun e s m => e.natAbs + 2 * s + 3 * m

/-- The `NonMalleableShaCommitment` backend as a `Scheme`: the salt/mask
stream the Rust code draws from `StdRng` is modelled by a deterministic
counter on the randomness state. -/
def shaSchemeModel (hash : ℤ → ℕ → ℕ → ℕ) : Scheme where
  commit := fun bid rng =>
    (shaCommit hash bid (2 * rng) (2 * rng + 1)).map fun co => (co, rng + 1)
  verify := fun c o => shaVerify hash c o

/-- A concrete session used to evaluate the clock theorems. -/
def sampleSession : Session :=
  ⟨.commit, ⟨2, 4⟩, 3, [], [], [], [], 0, 1, fun _ => 1⟩

/-- The session reached from `mkSession ⟨2, 4⟩ 0 10 (fun _ => 1)` over the
hash backend by `commit_real(0, 7, 1)` at time 0. -/
def sampleCommitSession : Session :=
  ⟨.commit, ⟨2, 4⟩, 0,
   [⟨.real 0, 7000003, ⟨7, 7000000, 0, 1, none, none, none⟩, 1, true⟩],
   [⟨.real 0, 7000003, 0⟩],
   [],
   [⟨0, .real 0, .commitmentPublished⟩],
   1, 10, fun _ => 1⟩

/-- The session reached from `sampleCommitSession` by `advance_to(2)`,
which auto-transitions Commit→Reveal at the commit deadline 2. -/
def sampleRevealSession : Session :=
  ⟨.reveal, ⟨2, 4⟩, 2,
   [⟨.real 0, 7000003, ⟨7, 7000000, 0, 1, none, none, none⟩, 1, true⟩],
   [⟨.real 0, 7000003, 0⟩],
   [],
   [⟨0, .real 0, .commitmentPublished⟩,
    ⟨2, .auctioneer, .phaseTransition .reveal .deadline⟩],
   1, 10, fun _ => 1⟩

/-! ### Helper lemmas -/

lemma encodeBid_of_nonneg {bid : ℚ} (hb : 0 ≤ bid) :
    encodeBid bid = some (round (bid * BID_SCALE)) := by
  rw [encodeBid, if_pos hb]

lemma encodeBid_nonneg {bid : ℚ} {e : ℤ} (h : encodeBid bid = some e) :
    0 ≤ e := by
  by_cases hb : 0 ≤ bid
  · rw [encodeBid_of_nonneg hb] at h
    obtain rfl : round (bid * BID_SCALE) = e := by injection h
    rw [round_eq]
    refine Int.floor_nonneg.mpr ?_
    have hs : (0 : ℚ) ≤ bid * BID_SCALE := by
      have : (0 : ℚ) ≤ BID_SCALE := by norm_num [BID_SCALE]
      exact mul_nonneg hb this
    linarith
  · rw [encodeBid, if_neg hb] at h
    exact absurd h (by simp)

lemma encodeBid_isSome_iff {bid : ℚ} : (encodeBid bid).isSome ↔ 0 ≤ bid := by
  unfold encodeBid
  by_cases hb : 0 ≤ bid <;> simp [hb]

lemma aggregateRoot_nil (H : ℕ → ℕ → ℕ → ℕ) (tag : ℕ) :
    aggregateRoot H tag [] = 0 := rfl

lemma aggregateRoot_append (H : ℕ → ℕ → ℕ → ℕ) (tag : ℕ) (es : List ℕ)
    (e : ℕ) :
    aggregateRoot H tag (es ++ [e]) = H tag (aggregateRoot H tag es) e := by
  simp [aggregateRoot, List.foldl_append]

lemma ledgerVerify_iff (H : ℕ → ℕ → ℕ → ℕ) (tag : ℕ) (es : List ℕ)
    (r : AuditReceipt) :
    ledgerVerify H tag es r = true ↔
      r.index < es.length ∧ es.getD r.index 0 = r.entryHash ∧
        aggregateRoot H tag (es.take (r.index + 1)) = r.root := by
  simp [ledgerVerify, and_assoc]

lemma logEntry_fst (H : ℕ → ℕ → ℕ → ℕ) (tag : ℕ) (es : List ℕ) (h : ℕ) :
    (logEntry H tag es h).1 = es ++ [h] := rfl

lemma logEntry_receipt (H : ℕ → ℕ → ℕ → ℕ) (tag : ℕ) (es : List ℕ) (h : ℕ) :
    (logEntry H tag es h).2 =
      ⟨(es ++ [h]).length - 1, aggregateRoot H tag (es ++ [h]), h⟩ := rfl

lemma ledger_log_verifies (H : ℕ → ℕ → ℕ → ℕ) (tag : ℕ) (es : List ℕ)
    (h : ℕ) :
    ledgerVerify H tag (logEntry H tag es h).1 (logEntry H tag es h).2 =
      true := by
  rw [logEntry_fst, logEntry_receipt]
  refine (ledgerVerify_iff H tag _ _).mpr ⟨?_, ?_, ?_⟩
  · simp
  · simp [List.getD_eq_getElem?_getD, List.getElem?_concat_length]
  · rw [List.take_of_length_le (by simp)]

/-! ### Theorems for the claims -/

/-- C7: the AuditLedger chained-root contract: the empty-chain root is the
zero value and the root after appending an entry is
`Hash(tag, previous root, entry)`; `log_entry` appends the entry and
returns a receipt holding index `length - 1`, that root and the entry
hash; `verify(receipt)` holds exactly when the index is in range, the
stored entry matches and replaying the chain reproduces the root; in
particular every receipt returned by `log_entry` verifies immediately. -/
theorem auditLedger_contract (H : ℕ → ℕ → ℕ → ℕ) (tag : ℕ) :
    aggregateRoot H tag [] = 0 ∧
    (∀ (es : List ℕ) (e : ℕ),
      aggregateRoot H tag (es ++ [e]) = H tag (aggregateRoot H tag es) e) ∧
    (∀ (es : List ℕ) (h : ℕ),
      (logEntry H tag es h).1 = es ++ [h] ∧
      (logEntry H tag es h).2.index = (es ++ [h]).length - 1 ∧
      (logEntry H tag es h).2.root = aggregateRoot H tag (es ++ [h]) ∧
      (logEntry H tag es h).2.entryHash = h) ∧
    (∀ (es : List ℕ) (r : AuditReceipt),
      ledgerVerify H tag es r = true ↔
        r.index < es.length ∧ es.getD r.index 0 = r.entryHash ∧
          aggregateRoot H tag (es.take (r.index + 1)) = r.root) ∧
    (∀ (es : List ℕ) (h : ℕ),
      ledgerVerify H tag (logEntry H tag es h).1 (logEntry H tag es h).2 =
        true) := by
  refine ⟨aggregateRoot_nil H tag, aggregateRoot_append H tag,
    fun es h => ⟨rfl, rfl, rfl, rfl⟩, ledgerVerify_iff H tag,
    ledger_log_verifies H tag⟩

/-- C7 witness: the ledger contract applied at a concrete hash, tag and
entry: the receipt returned for the second entry verifies. -/
theorem auditLedger_contract_witness :
    ledgerVerify (fun tag acc entry => tag + 3 * acc + 5 * entry) 7
      (logEntry (fun tag acc entry => tag + 3 * acc + 5 * entry) 7 [9] 11).1
      (logEntry (fun tag acc entry => tag + 3 * acc + 5 * entry) 7 [9] 11).2 =
      true :=
  (auditLedger_contract (fun tag acc entry => tag + 3 * acc + 5 * entry)
    7).2.2.2.2 [9] 11

/-- C3 counterexample: an opening whose bid field is negative makes the
hash backend's `verify` panic (modelled as `none`) through the
`BidEncoding::new` assertion, instead of returning a boolean. -/
theorem shaVerify_panics_on_negative_bid :
    shaVerify (fun _ _ _ => 0) 0 ⟨-1, 0, 0, 0, none, none, none⟩ = none := by
  simp [shaVerify, encodeBid]

/-- C3 (amended): for every backend, `verify` returns a boolean — never
panics — whenever the opening's claimed bid lies in the encoding domain
(non-negative; NaN and infinities are not representable here), with the
range-proof-backed and audited backends additionally requiring the stored
encoding to fit in a u64 (or to mismatch, in which case they reject before
the u64 conversion); a negative claimed bid instead panics inside
`BidEncoding::new`. -/
theorem verify_total_on_domain :
    (∀ (hash : ℤ → ℕ → ℕ → ℕ) (c : ℕ) (o : Opening), 0 ≤ o.bid →
      (shaVerify hash c o).isSome) ∧
    (∀ (P : CryptoPrims) (c : ℕ) (o : Opening), 0 ≤ o.bid →
      (pedersenVerify P c o).isSome ∧ (realNMVerify P c o).isSome) ∧
    (∀ (P : CryptoPrims) (c : ℕ) (o : Opening), 0 ≤ o.bid →
      (o.encoding < 2 ^ 64 ∨ encodeBid o.bid ≠ some o.encoding) →
      (bulletproofVerify P c o).isSome) ∧
    (∀ (P : CryptoPrims) (es : List ℕ) (c : ℕ) (o : Opening), 0 ≤ o.bid →
      (o.encoding < 2 ^ 64 ∨ encodeBid o.bid ≠ some o.encoding) →
      (auditedVerify P es c o).isSome) := by
  have hbp : ∀ (P : CryptoPrims) (c : ℕ) (o : Opening), 0 ≤ o.bid →
      (o.encoding < 2 ^ 64 ∨ encodeBid o.bid ≠ some o.encoding) →
      (bulletproofVerify P c o).isSome := by
    intro P c o hb hdom
    have he := encodeBid_of_nonneg hb
    simp only [bulletproofVerify, he, Option.some_bind]
    by_cases hne : round (o.bid * BID_SCALE) ≠ o.encoding
    · rw [if_pos hne]; simp
    · rw [if_neg hne]
      push_neg at hne
      have henc : encodeBid o.bid = some o.encoding := by rw [he, hne]
      have hpos : 0 ≤ o.encoding := encodeBid_nonneg henc
      have hlt : o.encoding < 2 ^ 64 := by
        rcases hdom with h | h
        · exact h
        · exact absurd henc h
      have hu : encAsU64 o.encoding = some o.encoding.toNat := by
        rw [encAsU64, if_pos ⟨hpos, hlt⟩]
      cases hbpf : o.bulletproof with
      | none => simp [hbpf]
      | some bp =>
          cases hdc : P.decompress c with
          | none => simp [hbpf, hdc]
          | some point =>
              cases hfb : P.rangeProofFromBytes bp.proof with
              | none => simp [hbpf, hdc, hfb]
              | some pr =>
                  by_cases hrv : P.rangeVerify pr c bp.rangeBits = false
                  · simp [hbpf, hdc, hfb, hrv]
                  · simp [hbpf, hdc, hfb, hrv, hu]
  refine ⟨?_, ?_, hbp, ?_⟩
  · intro hash c o hb
    simp [shaVerify, encodeBid_of_nonneg hb]
  · intro P c o hb
    constructor
    · simp [pedersenVerify, encodeBid_of_nonneg hb]
    · simp [realNMVerify, encodeBid_of_nonneg hb]
  · intro P es c o hb hdom
    cases hr : o.auditReceipt with
    | none => simp [auditedVerify, hr]
    | some r =>
        have hb2 := hbp P c o hb hdom
        simpa [auditedVerify, hr, Option.isSome_map'] using hb2

/-- C3 witness: the amended totality applied at a concrete backend,
commitment and in-domain opening. -/
theorem verify_total_on_domain_witness :
    (0 : ℚ) ≤ 3 ∧
      (shaVerify (fun _ _ _ => 0) 0 ⟨3, 3000000, 0, 0, none, none, none⟩).isSome :=
  ⟨by norm_num,
   verify_total_on_domain.1 (fun _ _ _ => 0) 0
     ⟨3, 3000000, 0, 0, none, none, none⟩ (by norm_num)⟩

/-- C6: for every backend, whenever the re-encoding of the claimed bid
value differs from the encoding stored in the opening, `verify` returns
`false` — before any digest or group-element check can pass. -/
theorem verify_rejects_encoding_mismatch (hash : ℤ → ℕ → ℕ → ℕ)
    (P : CryptoPrims) (es : List ℕ) (c : ℕ) (o : Opening) (e : ℤ)
    (he : encodeBid o.bid = some e) (hne : e ≠ o.encoding) :
    shaVerify hash c o = some false ∧
    pedersenVerify P c o = some false ∧
    realNMVerify P c o = some false ∧
    bulletproofVerify P c o = some false ∧
    auditedVerify P es c o = some false := by
  have hbp : bulletproofVerify P c o = some false := by
    simp only [bulletproofVerify, he, Option.some_bind]
    rw [if_pos hne]
  refine ⟨?_, ?_, ?_, hbp, ?_⟩
  · simp [shaVerify, he, hne]
  · simp only [pedersenVerify, he, Option.map_some']
    rw [if_pos hne]
  · simp only [realNMVerify, he, Option.map_some']
    rw [if_pos hne]
  · cases hr : o.auditReceipt with
    | none => simp [auditedVerify, hr]
    | some r => simp [auditedVerify, hr, hbp]

/-- C6 witness: the mismatch rejection applied at a concrete backend and
opening whose stored encoding disagrees with the re-encoding of its bid. -/
theorem verify_rejects_encoding_mismatch_witness :
    encodeBid (3 : ℚ) = some 3000000 ∧ (3000000 : ℤ) ≠ 7 ∧
      shaVerify (fun _ _ _ => 0) 0 ⟨3, 7, 0, 0, none, none, none⟩ =
        some false :=
  ⟨by norm_num [encodeBid, BID_SCALE, round_eq], by norm_num,
   (verify_rejects_encoding_mismatch (fun _ _ _ => 0) trivPrims
      [] 0 ⟨3, 7, 0, 0, none, none, none⟩ 3000000
      (by norm_num [encodeBid, BID_SCALE, round_eq]) (by norm_num)).1⟩

lemma audited_roundtrip_aux (P : CryptoPrims) (hP : GroupOk P) (bid : ℚ)
    (e : ℤ) (rng : ℕ) (es : List ℕ) (he : encodeBid bid = some e)
    (hu : encAsU64 e = some e.toNat) :
    ∃ es' c o, auditedCommit P es bid rng = some (es', c, o) ∧
      auditedVerify P es' c o = some true := by
  have hbc : bulletproofCommit P 64 bid rng = some
      ((P.proveSingle e.toNat (P.scalarFromRng rng)).2,
       ⟨bid, e, 0, 0, none, none,
        some ⟨P.rangeProofToBytes (P.proveSingle e.toNat (P.scalarFromRng rng)).1,
          P.scalarFromRng rng, 64⟩⟩) := by
    rw [bulletproofCommit, he, Option.some_bind, hu, Option.map_some']
  have hac : auditedCommit P es bid rng = some
      ((logEntry P.ledgerHash P.ledgerTag es
          (P.auditEntryHash (P.proveSingle e.toNat (P.scalarFromRng rng)).2 e 0 0
            none (some ⟨P.rangeProofToBytes
                (P.proveSingle e.toNat (P.scalarFromRng rng)).1,
              P.scalarFromRng rng, 64⟩))).1,
       (P.proveSingle e.toNat (P.scalarFromRng rng)).2,
       ⟨bid, e, 0, 0, none,
        some (logEntry P.ledgerHash P.ledgerTag es
          (P.auditEntryHash (P.proveSingle e.toNat (P.scalarFromRng rng)).2 e 0 0
            none (some ⟨P.rangeProofToBytes
                (P.proveSingle e.toNat (P.scalarFromRng rng)).1,
              P.scalarFromRng rng, 64⟩))).2,
        some ⟨P.rangeProofToBytes (P.proveSingle e.toNat (P.scalarFromRng rng)).1,
          P.scalarFromRng rng, 64⟩⟩) := by
    rw [auditedCommit, hbc, Option.map_some']
  refine ⟨_, _, _, hac, ?_⟩
  have hdc : P.decompress (P.proveSingle e.toNat (P.scalarFromRng rng)).2 =
      some (P.pedersenCommit e.toNat (P.scalarFromRng rng)) := by
    rw [hP.prove_point, hP.decompress_compress]
  have hrv := hP.range_complete e.toNat (P.scalarFromRng rng) 64
  have hinner : bulletproofVerify P
      (P.proveSingle e.toNat (P.scalarFromRng rng)).2
      ⟨bid, e, 0, 0, none,
       some (logEntry P.ledgerHash P.ledgerTag es
          (P.auditEntryHash (P.proveSingle e.toNat (P.scalarFromRng rng)).2 e 0 0
            none (some ⟨P.rangeProofToBytes
                (P.proveSingle e.toNat (P.scalarFromRng rng)).1,
              P.scalarFromRng rng, 64⟩))).2,
       some ⟨P.rangeProofToBytes (P.proveSingle e.toNat (P.scalarFromRng rng)).1,
         P.scalarFromRng rng, 64⟩⟩ = some true := by
    simp [bulletproofVerify, he, hdc, hP.proof_bytes, hrv, hu]
  have hlv := ledger_log_verifies P.ledgerHash P.ledgerTag es
    (P.auditEntryHash (P.proveSingle e.toNat (P.scalarFromRng rng)).2 e 0 0
      none (some ⟨P.rangeProofToBytes
          (P.proveSingle e.toNat (P.scalarFromRng rng)).1,
        P.scalarFromRng rng, 64⟩))
  simp only [logEntry_receipt, List.length_append, List.length_singleton,
    Nat.add_sub_cancel] at hinner hlv
  simp only [auditedVerify, hinner, Option.map_some', logEntry_receipt,
    List.length_append, List.length_singleton, Nat.add_sub_cancel]
  simp [hlv]

/-- C9: for the hash, Pedersen and audited backends, committing to any bid
in the supported domain — for any randomness — yields a commitment/opening
pair that verifies, assuming only the completeness contracts of the
underlying primitives. -/
theorem commit_verify_roundtrip (hash : ℤ → ℕ → ℕ → ℕ) (P : CryptoPrims)
    (hP : GroupOk P) (bid : ℚ) (salt mask rng : ℕ) (es : List ℕ)
    (hb : 0 ≤ bid) (hrange : round (bid * BID_SCALE) < 2 ^ 64) :
    (∃ c o, shaCommit hash bid salt mask = some (c, o) ∧
      shaVerify hash c o = some true) ∧
    (∃ c o, pedersenCommitOp P bid salt mask = some (c, o) ∧
      pedersenVerify P c o = some true) ∧
    (∃ c o, realNMCommit P bid salt mask = some (c, o) ∧
      realNMVerify P c o = some true) ∧
    (∃ c o, bulletproofCommit P 64 bid rng = some (c, o) ∧
      bulletproofVerify P c o = some true) ∧
    (∃ es' c o, auditedCommit P es bid rng = some (es', c, o) ∧
      auditedVerify P es' c o = some true) := by
  have he := encodeBid_of_nonneg hb
  have hpos : 0 ≤ round (bid * BID_SCALE) := encodeBid_nonneg he
  have hu : encAsU64 (round (bid * BID_SCALE)) =
      some (round (bid * BID_SCALE)).toNat := by
    rw [encAsU64, if_pos ⟨hpos, hrange⟩]
  refine ⟨?_, ?_, ?_, ?_, ?_⟩
  · refine ⟨hash (round (bid * BID_SCALE)) salt mask,
      ⟨bid, round (bid * BID_SCALE), salt, mask, none, none, none⟩, ?_, ?_⟩
    · simp [shaCommit, he]
    · simp [shaVerify, he]
  · refine ⟨P.compress (P.pedersenPoint (round (bid * BID_SCALE)) salt mask),
      ⟨bid, round (bid * BID_SCALE), salt, mask, none, none, none⟩, ?_, ?_⟩
    · simp [pedersenCommitOp, he]
    · simp [pedersenVerify, he, hP.decompress_compress]
  · refine ⟨P.compress (P.realNMPoint (round (bid * BID_SCALE)) salt),
      ⟨bid, round (bid * BID_SCALE), salt, mask,
       some (P.fischlinProve (P.realNMPoint (round (bid * BID_SCALE)) salt)
         (round (bid * BID_SCALE)) salt mask), none, none⟩, ?_, ?_⟩
    · simp [realNMCommit, he]
    · simp [realNMVerify, he, hP.decompress_compress, hP.fischlin_complete]
  · refine ⟨(P.proveSingle (round (bid * BID_SCALE)).toNat
        (P.scalarFromRng rng)).2,
      ⟨bid, round (bid * BID_SCALE), 0, 0, none, none,
       some ⟨P.rangeProofToBytes (P.proveSingle (round (bid * BID_SCALE)).toNat
           (P.scalarFromRng rng)).1, P.scalarFromRng rng, 64⟩⟩, ?_, ?_⟩
    · rw [bulletproofCommit, he, Option.some_bind, hu, Option.map_some']
    · have hdc : P.decompress (P.proveSingle (round (bid * BID_SCALE)).toNat
          (P.scalarFromRng rng)).2 =
          some (P.pedersenCommit (round (bid * BID_SCALE)).toNat
            (P.scalarFromRng rng)) := by
        rw [hP.prove_point, hP.decompress_compress]
      have hrv := hP.range_complete (round (bid * BID_SCALE)).toNat
        (P.scalarFromRng rng) 64
      simp [bulletproofVerify, he, hdc, hP.proof_bytes, hrv, hu]
  · exact audited_roundtrip_aux P hP bid (round (bid * BID_SCALE)) rng es he hu
lemma groupOk_triv : GroupOk trivPrims :=
  ⟨fun _ => rfl, fun _ _ => rfl, fun _ _ _ => rfl, fun _ => rfl,
   fun _ _ _ => rfl⟩

lemma round_three_scaled : round ((3 : ℚ) * BID_SCALE) = 3000000 := by
  norm_num [BID_SCALE, round_eq]

/-- C9 witness: the round-trip applied at the concrete primitives, bid 3
and fixed randomness. -/
theorem commit_verify_roundtrip_witness :
    (0 : ℚ) ≤ 3 ∧ round ((3 : ℚ) * BID_SCALE) < 2 ^ 64 ∧
      (∃ c o, shaCommit (fun e s m => e.natAbs + s + m) 3 5 6 = some (c, o) ∧
        shaVerify (fun e s m => e.natAbs + s + m) c o = some true) :=
  ⟨by norm_num, by rw [round_three_scaled]; norm_num,
   (commit_verify_roundtrip (fun e s m => e.natAbs + s + m) trivPrims
      groupOk_triv 3 5 6 0 [] (by norm_num)
      (by rw [round_three_scaled]; norm_num)).1⟩

/-- C8: `advance_to(now)` fails with `ClockRewind` (and performs no state
change — the Lean model returns before any mutation, as the Rust does)
whenever `now` is below the session clock; otherwise it succeeds, sets the
clock to `now`, transitions Commit→Reveal when `now` has reached the
commit deadline, and then Reveal→Resolved when `now` has reached the
reveal deadline. -/
theorem advanceTo_spec (s : Session) (now : ℕ) :
    (now < s.currentTime →
      advanceTo s now = .error (.clockRewind now s.currentTime)) ∧
    (s.currentTime ≤ now →
      match advanceTo s now with
      | .error _ => False
      | .ok s' =>
          s'.currentTime = now ∧ s'.schedule = s.schedule ∧
          s'.commitments = s.commitments ∧
          s'.phase = (match s.phase with
            | .commit =>
                if s.schedule.commitDeadline ≤ now then
                  (if s.schedule.revealDeadline ≤ now then .resolved
                   else .reveal)
                else .commit
            | .reveal =>
                if s.schedule.revealDeadline ≤ now then .resolved else .reveal
            | .resolved => .resolved)) := by
  constructor
  · intro h
    rw [advanceTo, if_pos h]
  · intro h
    have hn : ¬ now < s.currentTime := not_lt.mpr h
    cases hp : s.phase with
    | commit =>
        by_cases hcd : s.schedule.commitDeadline ≤ now
        · by_cases hrd : s.schedule.revealDeadline ≤ now
          · simp [advanceTo, hn, hp, hcd, hrd, transitionToPhase, logBroadcast]
          · simp [advanceTo, hn, hp, hcd, hrd, transitionToPhase, logBroadcast]
        · simp [advanceTo, hn, hp, hcd, transitionToPhase, logBroadcast]
    | reveal =>
        by_cases hrd : s.schedule.revealDeadline ≤ now
        · simp [advanceTo, hn, hp, hrd, transitionToPhase, logBroadcast]
        · simp [advanceTo, hn, hp, hrd, transitionToPhase, logBroadcast]
    | resolved =>
        simp [advanceTo, hn, hp, transitionToPhase, logBroadcast]

/-- C8 witness: the clock discipline applied at a concrete session with
clock 3: rewinding to 1 fails with `ClockRewind`, and advancing to 5
(past both deadlines 2 and 4) succeeds and lands in Resolved. -/
theorem advanceTo_spec_witness :
    ((1 : ℕ) < 3 ∧
      advanceTo sampleSession 1 = .error (.clockRewind 1 3)) ∧
    ((3 : ℕ) ≤ 5 ∧
      match advanceTo sampleSession 5 with
      | .error _ => False
      | .ok s' =>
          s'.currentTime = 5 ∧ s'.schedule = sampleSession.schedule ∧
          s'.commitments = sampleSession.commitments ∧
          s'.phase = (match sampleSession.phase with
            | .commit =>
                if sampleSession.schedule.commitDeadline ≤ 5 then
                  (if sampleSession.schedule.revealDeadline ≤ 5 then .resolved
                   else .reveal)
                else .commit
            | .reveal =>
                if sampleSession.schedule.revealDeadline ≤ 5 then .resolved
                else .reveal
            | .resolved => .resolved)) :=
  ⟨⟨by decide, (advanceTo_spec sampleSession 1).1 (by decide)⟩,
   ⟨by decide, (advanceTo_spec sampleSession 5).2 (by decide)⟩⟩

/-! ### Lemmas on the highest/second scan -/

lemma listMax_cons {l : List ℚ} (x : ℚ) (h : l ≠ []) :
    listMax (x :: l) = max x (listMax l) := by
  cases l with
  | nil => exact absurd rfl h
  | cons c rest => rfl

lemma le_listMax {l : List ℚ} {b : ℚ} (h : b ∈ l) : b ≤ listMax l := by
  induction l with
  | nil => cases h
  | cons x rest ih =>
      cases rest with
      | nil => simp at h; simp [listMax, h]
      | cons c r2 =>
          rw [listMax_cons x (by simp)]
          rcases List.mem_cons.mp h with rfl | hmem
          · exact le_max_left _ _
          · exact le_trans (ih hmem) (le_max_right _ _)

lemma listMax_mem {l : List ℚ} (h : l ≠ []) : listMax l ∈ l := by
  induction l with
  | nil => exact absurd rfl h
  | cons x rest ih =>
      cases rest with
      | nil => simp [listMax]
      | cons c r2 =>
          rw [listMax_cons x (by simp)]
          rcases max_cases x (listMax (c :: r2)) with ⟨heq, _⟩ | ⟨heq, _⟩
          · rw [heq]; exact List.mem_cons_self _ _
          · rw [heq]; exact List.mem_cons_of_mem _ (ih (by simp))

lemma listMax_append_singleton {l : List ℚ} (h : l ≠ []) (b : ℚ) :
    listMax (l ++ [b]) = max (listMax l) b := by
  induction l with
  | nil => exact absurd rfl h
  | cons x rest ih =>
      cases rest with
      | nil => simp [listMax]
      | cons c r2 =>
          have h2 : (c :: r2 : List ℚ) ≠ [] := by simp
          have h3 : (c :: r2 ++ [b] : List ℚ) ≠ [] := by simp
          rw [List.cons_append, listMax_cons x h3, ih h2,
            listMax_cons x h2, max_assoc]

lemma erase_append_singleton_not_mem {l : List ℚ} {b : ℚ} (h : b ∉ l) :
    (l ++ [b]).erase b = l := by
  rw [List.erase_append_right _ (by simpa using h), List.erase_cons_head,
    List.append_nil]

lemma erase_append_singleton_of_mem {l : List ℚ} {x : ℚ} (h : x ∈ l) (b : ℚ) :
    (l ++ [b]).erase x = l.erase x ++ [b] :=
  List.erase_append_left _ (by simpa using h)

lemma listMax_erase_le {l : List ℚ} (h : l.erase (listMax l) ≠ []) :
    listMax (l.erase (listMax l)) ≤ listMax l := by
  have hm := listMax_mem h
  exact le_listMax (List.mem_of_mem_erase hm)

lemma secondHighest_append_max {bids : List ℚ} (h : bids ≠ []) :
    secondHighest (bids ++ [listMax bids]) = listMax bids := by
  have hmem := listMax_mem h
  have hM : listMax (bids ++ [listMax bids]) = listMax bids := by
    rw [listMax_append_singleton h, max_self]
  rw [secondHighest, hM, erase_append_singleton_of_mem hmem]
  simp only [List.append_eq_nil, List.cons_ne_self, and_false, if_false]
  cases he : bids.erase (listMax bids) with
  | nil => simp [listMax]
  | cons c r2 =>
      have hne : bids.erase (listMax bids) ≠ [] := by rw [he]; simp
      rw [← he, listMax_append_singleton hne]
      exact max_eq_right (listMax_erase_le hne)

lemma secondHighest_singleton (b : ℚ) : secondHighest [b] = 0 := by
  simp [secondHighest, listMax, List.erase_cons_head]

/-- What the resolution scan computes on a non-empty valid-bid list:
the highest bid with ties won by the lowest tie-rank, and — when at
least two bids exist — the second-highest bid counting multiplicity. -/
lemma selectHighest_spec :
    ∀ (l : List (ParticipantId × ℚ)), l ≠ [] →
    ∃ w, (selectHighest l).1 = some (w, listMax (l.map Prod.snd)) ∧
      (w, listMax (l.map Prod.snd)) ∈ l ∧
      (∀ p ∈ l, p.2 = listMax (l.map Prod.snd) →
        w.tieRank ≤ p.1.tieRank) ∧
      (selectHighest l).2 = (if l.length ≤ 1 then none
        else some (secondHighest (l.map Prod.snd))) := by
  intro l
  induction l using List.reverseRecOn with
  | nil => intro h; exact absurd rfl h
  | append_singleton l x ih =>
      intro _
      by_cases hl : l = []
      · subst hl
        refine ⟨x.1, rfl, by exact List.mem_singleton.mpr rfl, ?_, rfl⟩
        intro p hp _
        have : p = x := by simpa using hp
        subst this
        exact le_refl _
      · obtain ⟨w, h1, h2, h3, h4⟩ := ih hl
        have hmap_ne : l.map Prod.snd ≠ [] := by simpa using hl
        have hfold : selectHighest (l ++ [x]) = hsStep (selectHighest l) x := by
          simp [selectHighest, List.foldl_append]
        have hsel : selectHighest l = (some (w, listMax (l.map Prod.snd)),
            if l.length ≤ 1 then none
            else some (secondHighest (l.map Prod.snd))) := by
          rw [← h1, ← h4]
        rw [hsel] at hfold
        have hM' : listMax ((l ++ [x]).map Prod.snd) =
            max (listMax (l.map Prod.snd)) x.2 := by
          rw [List.map_append]
          simpa using listMax_append_singleton hmap_ne x.2
        have hlen : ¬ ((l ++ [x]).length ≤ 1) := by
          have : 1 ≤ l.length := List.length_pos.mpr hl
          simp only [List.length_append, List.length_singleton]
          omega
        have hbids' : (l ++ [x]).map Prod.snd = l.map Prod.snd ++ [x.2] := by
          simp
        by_cases hbig : listMax (l.map Prod.snd) < x.2 ∨
            (x.2 = listMax (l.map Prod.snd) ∧ x.1.tieRank < w.tieRank)
        · have hstep : hsStep (some (w, listMax (l.map Prod.snd)),
              if l.length ≤ 1 then none
              else some (secondHighest (l.map Prod.snd))) x =
              (some x, some (listMax (l.map Prod.snd))) := by
            simp only [hsStep]
            rw [if_pos hbig]
          rw [hstep] at hfold
          rcases hbig with hlt | ⟨heq, hrank⟩
          · -- strictly larger new bid
            have hmax : max (listMax (l.map Prod.snd)) x.2 = x.2 :=
              max_eq_right hlt.le
            refine ⟨x.1, ?_, ?_, ?_, ?_⟩
            · rw [hfold, hM', hmax]
            · rw [hM', hmax]
              exact List.mem_append_right _ (by simp)
            · intro p hp hpM
              rw [hM', hmax] at hpM
              rcases List.mem_append.mp hp with hpl | hpx
              · exact absurd (hpM ▸ le_listMax
                  (List.mem_map_of_mem Prod.snd hpl)) (not_le.mpr hlt)
              · have : p = x := by simpa using hpx
                subst this
                exact le_refl _
            · rw [hfold, if_neg hlen, hbids']
              have hnm : x.2 ∉ l.map Prod.snd := fun hmem =>
                absurd hlt (not_lt.mpr (le_listMax hmem))
              rw [secondHighest, listMax_append_singleton hmap_ne,
                max_eq_right hlt.le, erase_append_singleton_not_mem hnm]
              simp only [if_neg hmap_ne]
          · -- equal bid winning the tie
            have hmax : max (listMax (l.map Prod.snd)) x.2 =
                listMax (l.map Prod.snd) := by rw [heq, max_self]
            refine ⟨x.1, ?_, ?_, ?_, ?_⟩
            · rw [hfold, hM', hmax, ← heq]
            · rw [hM', hmax, ← heq]
              exact List.mem_append_right _ (by simp)
            · intro p hp hpM
              rw [hM', hmax] at hpM
              rcases List.mem_append.mp hp with hpl | hpx
              · exact le_trans hrank.le (h3 p hpl hpM)
              · have : p = x := by simpa using hpx
                subst this
                exact le_refl _
            · rw [hfold, if_neg hlen, hbids', heq,
                secondHighest_append_max hmap_ne]
        · push_neg at hbig
          obtain ⟨hnlt, hnequal⟩ := hbig
          by_cases heq : x.2 = listMax (l.map Prod.snd)
          · -- equal bid losing the tie: highest unchanged, second updated
            have hrank : w.tieRank ≤ x.1.tieRank := hnequal heq
            have hstep : hsStep (some (w, listMax (l.map Prod.snd)),
                if l.length ≤ 1 then none
                else some (secondHighest (l.map Prod.snd))) x =
                (some (w, listMax (l.map Prod.snd)),
                 if (match (if l.length ≤ 1 then none
                      else some (secondHighest (l.map Prod.snd))) with
                    | none => true
                    | some s => decide (s < x.2)) then some x.2
                 else (if l.length ≤ 1 then none
                      else some (secondHighest (l.map Prod.snd)))) := by
              simp only [hsStep]
              rw [if_neg (by push_neg; exact ⟨hnlt, hnequal⟩), if_pos heq]
            rw [hstep] at hfold
            have hmax : max (listMax (l.map Prod.snd)) x.2 =
                listMax (l.map Prod.snd) := by rw [heq, max_self]
            refine ⟨w, ?_, ?_, ?_, ?_⟩
            · rw [hfold, hM', hmax]
            · rw [hM', hmax]
              exact List.mem_append_left _ h2
            · intro p hp hpM
              rw [hM', hmax] at hpM
              rcases List.mem_append.mp hp with hpl | hpx
              · exact h3 p hpl hpM
              · have : p = x := by simpa using hpx
                subst this
                exact hrank
            · rw [hfold, if_neg hlen, hbids',
                show List.map Prod.snd l ++ [x.2] =
                    List.map Prod.snd l ++ [listMax (List.map Prod.snd l)] by
                  rw [heq],
                secondHighest_append_max hmap_ne]
              by_cases hl1 : l.length ≤ 1
              · simp [if_pos hl1, heq]
              · simp only [if_neg hl1]
                have hermem : listMax (l.map Prod.snd) ∈ l.map Prod.snd :=
                  listMax_mem hmap_ne
                have herlen := List.length_erase_of_mem hermem
                have herne : (l.map Prod.snd).erase
                    (listMax (l.map Prod.snd)) ≠ [] := by
                  have h2le : 2 ≤ (l.map Prod.snd).length := by
                    rw [List.length_map]; omega
                  intro hc
                  rw [hc] at herlen
                  simp at herlen
                  omega
                have hS : secondHighest (l.map Prod.snd) =
                    listMax ((l.map Prod.snd).erase
                      (listMax (l.map Prod.snd))) := by
                  rw [secondHighest]
                  simp only [if_neg herne]
                have hSle : secondHighest (l.map Prod.snd) ≤
                    listMax (l.map Prod.snd) := by
                  rw [hS]; exact listMax_erase_le herne
                by_cases hSlt : secondHighest (l.map Prod.snd) < x.2
                · rw [if_pos (by simpa using hSlt), heq]
                · have hSM : secondHighest (l.map Prod.snd) =
                      listMax (l.map Prod.snd) := by
                    refine le_antisymm hSle ?_
                    rw [← heq]
                    exact not_lt.mp hSlt
                  rw [if_neg (by simpa using hSlt), hSM]
          · -- strictly smaller new bid: highest unchanged
            have hxlt : x.2 < listMax (l.map Prod.snd) :=
              lt_of_le_of_ne hnlt heq
            have hstep : hsStep (some (w, listMax (l.map Prod.snd)),
                if l.length ≤ 1 then none
                else some (secondHighest (l.map Prod.snd))) x =
                (some (w, listMax (l.map Prod.snd)),
                 if (match (if l.length ≤ 1 then none
                      else some (secondHighest (l.map Prod.snd))) with
                    | none => true
                    | some s => decide (s < x.2)) then some x.2
                 else (if l.length ≤ 1 then none
                      else some (secondHighest (l.map Prod.snd)))) := by
              simp only [hsStep]
              rw [if_neg (by push_neg; exact ⟨hnlt, hnequal⟩), if_neg heq]
              simp only [decide_eq_true hxlt, Bool.and_true]
              by_cases hc : (match (if l.length ≤ 1 then none
                    else some (secondHighest (l.map Prod.snd)) : Option ℚ) with
                  | none => true
                  | some s => decide (s < x.2)) = true
              · rw [if_pos hc, if_pos hc]
              · rw [if_neg hc, if_neg hc]
            rw [hstep] at hfold
            have hmax : max (listMax (l.map Prod.snd)) x.2 =
                listMax (l.map Prod.snd) := max_eq_left hxlt.le
            have hermem : listMax (l.map Prod.snd) ∈ l.map Prod.snd :=
              listMax_mem hmap_ne
            refine ⟨w, ?_, ?_, ?_, ?_⟩
            · rw [hfold, hM', hmax]
            · rw [hM', hmax]
              exact List.mem_append_left _ h2
            · intro p hp hpM
              rw [hM', hmax] at hpM
              rcases List.mem_append.mp hp with hpl | hpx
              · exact h3 p hpl hpM
              · have : p = x := by simpa using hpx
                subst this
                exact absurd hpM heq
            · rw [hfold, if_neg hlen, hbids']
              have hsecond : secondHighest (l.map Prod.snd ++ [x.2]) =
                  listMax ((l.map Prod.snd).erase
                    (listMax (l.map Prod.snd)) ++ [x.2]) := by
                rw [secondHighest, listMax_append_singleton hmap_ne, hmax,
                  erase_append_singleton_of_mem hermem]
                simp only [List.append_eq_nil, List.cons_ne_self, and_false,
                  if_false]
              rw [hsecond]
              by_cases hl1 : l.length ≤ 1
              · have hone : l.length = 1 := by
                  have : 1 ≤ l.length := List.length_pos.mpr hl
                  omega
                obtain ⟨a, rfl⟩ := List.length_eq_one.mp hone
                simp [if_pos hl1, listMax, List.erase_cons_head]
              · simp only [if_neg hl1]
                have herne : (l.map Prod.snd).erase
                    (listMax (l.map Prod.snd)) ≠ [] := by
                  have h2le : 2 ≤ (l.map Prod.snd).length := by
                    rw [List.length_map]; omega
                  have herlen := List.length_erase_of_mem hermem
                  intro hc
                  rw [hc] at herlen
                  simp at herlen
                  omega
                have hS : secondHighest (l.map Prod.snd) =
                    listMax ((l.map Prod.snd).erase
                      (listMax (l.map Prod.snd))) := by
                  rw [secondHighest]
                  simp only [if_neg herne]
                rw [listMax_append_singleton herne, ← hS]
                by_cases hSlt : secondHighest (l.map Prod.snd) < x.2
                · rw [if_pos (by simpa using hSlt), max_eq_right hSlt.le]
                · rw [if_neg (by simpa using hSlt), max_eq_left (not_lt.mp hSlt)]

/-! ### Lemmas on the full auction run -/

lemma commitRealRecords_spec (S : Scheme) (coll : ℚ)
    (rr : Option (List Bool)) :
    ∀ (vals : List ℚ) (i rng : ℕ) (recs : List CommitmentRecord) (rng' : ℕ),
    commitRealRecords S coll rr vals i rng = some (recs, rng') →
    recs.length = vals.length ∧ ∀ r ∈ recs, r.postedCollateral = coll := by
  intro vals
  induction vals with
  | nil =>
      intro i rng recs rng' h
      simp only [commitRealRecords] at h
      obtain ⟨rfl, rfl⟩ : recs = [] ∧ rng = rng' := by
        constructor <;> [injection h with h1; injection h with h1] <;>
          simp_all
      simp
  | cons v vs ih =>
      intro i rng recs rng' h
      simp only [commitRealRecords] at h
      cases hc : S.commit v rng with
      | none => simp [hc] at h
      | some co =>
          simp only [hc] at h
          cases hrest : commitRealRecords S coll rr vs (i + 1) co.2 with
          | none => simp [hrest] at h
          | some rest =>
              simp only [hrest] at h
              obtain ⟨ihlen, ihcoll⟩ := ih (i + 1) co.2 rest.1 rest.2 (by
                rw [hrest])
              injection h with h1
              injection h1 with h2 h3
              subst h2
              constructor
              · simp [ihlen]
              · intro r hr
                rcases List.mem_cons.mp hr with rfl | hmem
                · rfl
                · exact ihcoll r hmem

lemma commitFalseRecords_spec (S : Scheme) (coll : ℚ) :
    ∀ (fbs : List FalseBid) (j rng : ℕ) (recs : List CommitmentRecord)
      (rng' : ℕ),
    commitFalseRecords S coll fbs j rng = some (recs, rng') →
    recs.length = fbs.length ∧ ∀ r ∈ recs, r.postedCollateral = coll := by
  intro fbs
  induction fbs with
  | nil =>
      intro j rng recs rng' h
      simp only [commitFalseRecords] at h
      obtain ⟨rfl, rfl⟩ : recs = [] ∧ rng = rng' := by
        constructor <;> [injection h with h1; injection h with h1] <;>
          simp_all
      simp
  | cons fb fbs ih =>
      intro j rng recs rng' h
      simp only [commitFalseRecords] at h
      cases hc : S.commit fb.bid rng with
      | none => simp [hc] at h
      | some co =>
          simp only [hc] at h
          cases hrest : commitFalseRecords S coll fbs (j + 1) co.2 with
          | none => simp [hrest] at h
          | some rest =>
              simp only [hrest] at h
              obtain ⟨ihlen, ihcoll⟩ := ih (j + 1) co.2 rest.1 rest.2 (by
                rw [hrest])
              injection h with h1
              injection h1 with h2 h3
              subst h2
              constructor
              · simp [ihlen]
              · intro r hr
                rcases List.mem_cons.mp hr with rfl | hmem
                · rfl
                · exact ihcoll r hmem

lemma revealPhase_spec (S : Scheme) (coll : ℚ) :
    ∀ (recs : List CommitmentRecord),
    (∀ r ∈ recs, r.postedCollateral = coll) →
    ∀ (vb : List (ParticipantId × ℚ)) (inv : ℚ),
    revealPhase S recs = some (vb, inv) →
    vb.length ≤ recs.length ∧
      inv = coll * ((recs.length - vb.length : ℕ) : ℚ) := by
  intro recs
  induction recs with
  | nil =>
      intro _ vb inv h
      simp only [revealPhase] at h
      obtain ⟨rfl, rfl⟩ : vb = [] ∧ (0 : ℚ) = inv := by
        constructor <;> [injection h with h1; injection h with h1] <;>
          simp_all
      simp
  | cons c rest ih =>
      intro hcoll vb inv h
      have hcrest : ∀ r ∈ rest, r.postedCollateral = coll := fun r hr =>
        hcoll r (List.mem_cons_of_mem _ hr)
      have hchead : c.postedCollateral = coll := hcoll c (List.mem_cons_self _ _)
      simp only [revealPhase] at h
      by_cases hwr : c.willReveal
      · rw [if_pos hwr] at h
        cases hv : S.verify c.commitment c.opening with
        | none => simp [hv] at h
        | some ok =>
            simp only [hv] at h
            cases hrest : revealPhase S rest with
            | none => simp [hrest] at h
            | some pair =>
                simp only [hrest] at h
                obtain ⟨ihlen, ihinv⟩ := ih hcrest pair.1 pair.2 (by rw [hrest])
                by_cases hok : ok = true
                · rw [if_pos hok] at h
                  injection h with h1
                  injection h1 with h2 h3
                  subst h2
                  refine ⟨by simpa using Nat.succ_le_succ ihlen, ?_⟩
                  rw [← h3, ihinv]
                  have hlen2 : (c :: rest).length -
                      ((c.id, c.opening.bid) :: pair.1).length =
                      rest.length - pair.1.length := by simp
                  rw [hlen2]
                · rw [if_neg hok] at h
                  injection h with h1
                  injection h1 with h2 h3
                  subst h2
                  refine ⟨le_trans ihlen (by simp), ?_⟩
                  rw [← h3, ihinv, hchead]
                  have hlen2 : (c :: rest).length - pair.1.length =
                      (rest.length - pair.1.length) + 1 := by
                    simp only [List.length_cons]
                    omega
                  rw [hlen2]
                  push_cast
                  ring
      · rw [if_neg hwr] at h
        cases hrest : revealPhase S rest with
        | none => simp [hrest] at h
        | some pair =>
            simp only [hrest] at h
            obtain ⟨ihlen, ihinv⟩ := ih hcrest pair.1 pair.2 (by rw [hrest])
            injection h with h1
            injection h1 with h2 h3
            subst h2
            refine ⟨le_trans ihlen (by simp), ?_⟩
            rw [← h3, ihinv, hchead]
            have hlen2 : (c :: rest).length - pair.1.length =
                (rest.length - pair.1.length) + 1 := by
              simp only [List.length_cons]
              omega
            rw [hlen2]
            push_cast
            ring

lemma runAuction_shape (S : Scheme) (res coll : ℚ) (vals : List ℚ)
    (fbs : List FalseBid) (rr : Option (List Bool)) (rng : ℕ)
    (out : AuctionOutcome)
    (h : runAuction S res coll vals fbs rr rng = some out) :
    ∃ (vb : List (ParticipantId × ℚ)) (inv : ℚ),
      vb.length ≤ vals.length + fbs.length ∧
      inv = coll * ((vals.length + fbs.length - vb.length : ℕ) : ℚ) ∧
      out = finishOutcome res coll vb inv := by
  rw [runAuction] at h
  by_cases hv : vals = []
  · rw [if_pos hv] at h; cases h
  · rw [if_neg hv] at h
    cases hcr : commitRealRecords S coll rr vals 0 rng with
    | none => simp [hcr] at h
    | some pr =>
        simp only [hcr] at h
        cases hcf : commitFalseRecords S coll fbs 0 pr.2 with
        | none => simp [hcf] at h
        | some pf =>
            simp only [hcf] at h
            cases hrp : revealPhase S (pr.1 ++ pf.1) with
            | none => simp [hrp] at h
            | some pvi =>
                simp only [hrp] at h
                injection h with h1
                obtain ⟨hrl, hrc⟩ :=
                  commitRealRecords_spec S coll rr vals 0 rng pr.1 pr.2
                    (by rw [hcr])
                obtain ⟨hfl, hfc⟩ :=
                  commitFalseRecords_spec S coll fbs 0 pr.2 pf.1 pf.2
                    (by rw [hcf])
                have hall : ∀ r ∈ pr.1 ++ pf.1, r.postedCollateral = coll := by
                  intro r hr
                  rcases List.mem_append.mp hr with hr | hr
                  · exact hrc r hr
                  · exact hfc r hr
                obtain ⟨hlen, hinv⟩ :=
                  revealPhase_spec S coll (pr.1 ++ pf.1) hall pvi.1 pvi.2
                    (by rw [hrp])
                refine ⟨pvi.1, pvi.2, ?_, ?_, h1.symm⟩
                · simpa [List.length_append, hrl, hfl] using hlen
                · simpa [List.length_append, hrl, hfl] using hinv

lemma hsStep_fst_isSome (a : ParticipantId × ℚ) (s : Option ℚ)
    (x : ParticipantId × ℚ) : ((hsStep (some a, s) x).1).isSome := by
  rcases a with ⟨hid, hbid⟩
  simp only [hsStep]
  repeat' split
  all_goals simp

lemma selectHighest_acc_some :
    ∀ (l : List (ParticipantId × ℚ)) (a : ParticipantId × ℚ)
      (s : Option ℚ),
    (l.foldl hsStep (some a, s)).1.isSome := by
  intro l
  induction l with
  | nil => intro a s; rfl
  | cons x rest ih =>
      intro a s
      rw [List.foldl_cons]
      rcases hstep : hsStep (some a, s) x with ⟨h1, h2⟩
      cases h1 with
      | none =>
          exfalso
          have hS := hsStep_fst_isSome a s x
          rw [hstep] at hS
          simp at hS
      | some b => exact ih b h2

lemma selectHighest_fst_none_iff (l : List (ParticipantId × ℚ)) :
    (selectHighest l).1 = none ↔ l = [] := by
  constructor
  · intro h
    cases l with
    | nil => rfl
    | cons x rest =>
        exfalso
        have := selectHighest_acc_some rest x none
        rw [selectHighest, List.foldl_cons] at h
        have hx : hsStep (none, none) x = (some x, none) := rfl
        rw [hx] at h
        rw [h] at this
        cases this
  · intro h; subst h; rfl

lemma finishOutcome_validBids (res coll : ℚ) (vb : List (ParticipantId × ℚ))
    (inv : ℚ) : (finishOutcome res coll vb inv).validBids = vb := by
  simp only [finishOutcome]
  rcases hs : selectHighest vb with ⟨h1, h2⟩
  cases h1 with
  | none => simp
  | some p =>
      rcases p with ⟨id, bid⟩
      by_cases hres : res < bid
      · simp [hres]
      · simp [hres]

lemma finishOutcome_penalty (res coll : ℚ) (vb : List (ParticipantId × ℚ))
    (inv : ℚ) : (finishOutcome res coll vb inv).auctioneerPenalty = 0 := by
  simp only [finishOutcome]
  rcases hs : selectHighest vb with ⟨h1, h2⟩
  cases h1 with
  | none => simp
  | some p =>
      rcases p with ⟨id, bid⟩
      by_cases hres : res < bid
      · simp [hres]
      · simp [hres]

lemma finishOutcome_collateral_fields (res coll : ℚ)
    (vb : List (ParticipantId × ℚ)) (inv : ℚ) :
    (vb ≠ [] ∧ (finishOutcome res coll vb inv).transferredCollateral = inv ∧
      (finishOutcome res coll vb inv).forfeitedToAuctioneer = 0) ∨
    (vb = [] ∧ (finishOutcome res coll vb inv).transferredCollateral = 0 ∧
      (finishOutcome res coll vb inv).forfeitedToAuctioneer = inv) := by
  by_cases hne : vb = []
  · right
    subst hne
    have hsel : selectHighest ([] : List (ParticipantId × ℚ)) =
        (none, none) := rfl
    simp [finishOutcome, hsel]
  · left
    obtain ⟨w, h1, _, _, h4⟩ := selectHighest_spec vb hne
    have hsel : selectHighest vb = (some (w, listMax (vb.map Prod.snd)),
        if vb.length ≤ 1 then none
        else some (secondHighest (vb.map Prod.snd))) := by
      rw [← h1, ← h4]
    simp only [finishOutcome, hsel]
    by_cases hres : res < listMax (vb.map Prod.snd)
    · simp [hres, hne]
    · simp [hres, hne]

/-! ### Theorems for the resolution claims -/

/-- C1 counterexample: real bid 5 below reserve 10 and a withheld false
bid of 100 with collateral 1 — no sale occurs (winner is none), yet the
forfeited collateral is assigned to `transferred_collateral` (not to
`forfeited_to_auctioneer`), exactly as the code's own test
`collateral_transfers_to_highest_valid_bidder` asserts. -/
theorem collateral_settlement_counterexample :
    runAuction (shaSchemeModel hashC) 10 1 [5] [⟨100, false⟩] none 0 =
      some ⟨10, 1, none, 5, 0, 1, 0, 0, [(.real 0, 5)]⟩ := by
  norm_num [runAuction, commitRealRecords, commitFalseRecords, revealPhase,
    finishOutcome, selectHighest, hsStep, shaSchemeModel, shaCommit,
    shaVerify, encodeBid, willRevealReal]

/-- C1 (amended): the total forfeited collateral is assigned to
`transferred_collateral` (with `forfeited_to_auctioneer` = 0) whenever at
least one valid bid exists — whether or not the sale occurs — and to
`forfeited_to_auctioneer` (with `transferred_collateral` = 0) exactly when
the valid-bid set is empty. -/
theorem collateral_settlement (S : Scheme) (res coll : ℚ) (vals : List ℚ)
    (fbs : List FalseBid) (rr : Option (List Bool)) (rng : ℕ)
    (out : AuctionOutcome)
    (h : runAuction S res coll vals fbs rr rng = some out) :
    (out.validBids = [] → out.transferredCollateral = 0 ∧
      out.forfeitedToAuctioneer =
        coll * ((vals.length + fbs.length : ℕ) : ℚ)) ∧
    (out.validBids ≠ [] → out.forfeitedToAuctioneer = 0 ∧
      out.transferredCollateral =
        coll * ((vals.length + fbs.length - out.validBids.length : ℕ) : ℚ)) := by
  obtain ⟨vb, inv, hlen, hinv, rfl⟩ := runAuction_shape S res coll vals fbs
    rr rng out h
  rw [finishOutcome_validBids]
  constructor
  · intro hnil
    subst hnil
    have hsel : selectHighest ([] : List (ParticipantId × ℚ)) =
        (none, none) := rfl
    simp only [finishOutcome, hsel]
    simp [hinv]
  · intro hne
    obtain ⟨w, h1, _, _, h4⟩ := selectHighest_spec vb hne
    have hsel : selectHighest vb = (some (w, listMax (vb.map Prod.snd)),
        if vb.length ≤ 1 then none
        else some (secondHighest (vb.map Prod.snd))) := by
      rw [← h1, ← h4]
    simp only [finishOutcome, hsel]
    by_cases hres : res < listMax (vb.map Prod.snd)
    · simp only [if_pos hres]
      simp [hinv]
    · simp only [if_neg hres]
      simp [hinv]

/-- C1 witness: the amended settlement applied to the counterexample run,
where one participant forfeits and one valid bid (below the reserve)
exists. -/
theorem collateral_settlement_witness :
    runAuction (shaSchemeModel hashC) 10 1 [5] [⟨100, false⟩] none 0 =
        some ⟨10, 1, none, 5, 0, 1, 0, 0, [(.real 0, 5)]⟩ ∧
    (((⟨10, 1, none, 5, 0, 1, 0, 0, [(.real 0, 5)]⟩ :
        AuctionOutcome).validBids = [] →
      (⟨10, 1, none, 5, 0, 1, 0, 0, [(.real 0, 5)]⟩ :
        AuctionOutcome).transferredCollateral = 0 ∧
      (⟨10, 1, none, 5, 0, 1, 0, 0, [(.real 0, 5)]⟩ :
        AuctionOutcome).forfeitedToAuctioneer =
        1 * ((([5] : List ℚ).length + ([⟨100, false⟩] : List FalseBid).length :
          ℕ) : ℚ)) ∧
    ((⟨10, 1, none, 5, 0, 1, 0, 0, [(.real 0, 5)]⟩ :
        AuctionOutcome).validBids ≠ [] →
      (⟨10, 1, none, 5, 0, 1, 0, 0, [(.real 0, 5)]⟩ :
        AuctionOutcome).forfeitedToAuctioneer = 0 ∧
      (⟨10, 1, none, 5, 0, 1, 0, 0, [(.real 0, 5)]⟩ :
        AuctionOutcome).transferredCollateral =
        1 * ((([5] : List ℚ).length + ([⟨100, false⟩] : List FalseBid).length -
          (⟨10, 1, none, 5, 0, 1, 0, 0, [(.real 0, 5)]⟩ :
            AuctionOutcome).validBids.length : ℕ) : ℚ))) :=
  ⟨by norm_num [runAuction, commitRealRecords, commitFalseRecords,
     revealPhase, finishOutcome, selectHighest, hsStep, shaSchemeModel,
     shaCommit, shaVerify, encodeBid, willRevealReal],
   collateral_settlement (shaSchemeModel hashC) 10 1 [5] [⟨100, false⟩]
     none 0 _ (by norm_num [runAuction, commitRealRecords,
       commitFalseRecords, revealPhase, finishOutcome, selectHighest,
       hsStep, shaSchemeModel, shaCommit, shaVerify, encodeBid,
       willRevealReal])⟩

/-- C4: with a non-empty valid-bid set, if the highest valid bid strictly
exceeds the reserve then the winner is a highest valid bidder, the winning
bid is that highest bid and the payment is max(reserve, second-highest
valid bid) — the second-highest taken as 0 when only one valid bid exists;
otherwise there is no sale: winner = none and payment = 0. In particular,
real bids [15, 9, 11] with no false bids and reserve 10 yield winner = real
bidder 0 and payment = max(10, 11) = 11. -/
theorem second_price_resolution (S : Scheme) (res coll : ℚ) (vals : List ℚ)
    (fbs : List FalseBid) (rr : Option (List Bool)) (rng : ℕ)
    (out : AuctionOutcome)
    (h : runAuction S res coll vals fbs rr rng = some out)
    (hne : out.validBids ≠ []) :
    ((res < listMax (out.validBids.map Prod.snd) →
      ∃ w, out.winner = some w ∧
        (w, listMax (out.validBids.map Prod.snd)) ∈ out.validBids ∧
        out.winningBid = listMax (out.validBids.map Prod.snd) ∧
        out.payment = max res (secondHighest (out.validBids.map Prod.snd))) ∧
     (¬ res < listMax (out.validBids.map Prod.snd) →
      out.winner = none ∧ out.payment = 0)) ∧
    runAuction (shaSchemeModel hashC) 10 1 [15, 9, 11] [] none 0 =
      some ⟨10, 1, some (.real 0), 15, 11, 0, 0, 0,
        [(.real 0, 15), (.real 1, 9), (.real 2, 11)]⟩ := by
  constructor
  · obtain ⟨vb, inv, hlen, hinv, rfl⟩ := runAuction_shape S res coll vals fbs
      rr rng out h
    rw [finishOutcome_validBids] at hne ⊢
    obtain ⟨w, h1, h2, h3, h4⟩ := selectHighest_spec vb hne
    have hsel : selectHighest vb = (some (w, listMax (vb.map Prod.snd)),
        if vb.length ≤ 1 then none
        else some (secondHighest (vb.map Prod.snd))) := by
      rw [← h1, ← h4]
    constructor
    · intro hres
      refine ⟨w, ?_, h2, ?_, ?_⟩
      · simp [finishOutcome, hsel, if_pos hres]
      · simp [finishOutcome, hsel, if_pos hres]
      · simp only [finishOutcome, hsel, if_pos hres]
        by_cases hl1 : vb.length ≤ 1
        · have hone : vb.length = 1 :=
            le_antisymm hl1 (List.length_pos.mpr hne)
          obtain ⟨a, rfl⟩ := List.length_eq_one.mp hone
          simp [secondHighest_singleton]
        · simp [if_neg hl1]
    · intro hres
      constructor <;> simp [finishOutcome, hsel, if_neg hres]
  · norm_num [runAuction, commitRealRecords, commitFalseRecords, revealPhase,
      finishOutcome, selectHighest, hsStep, shaSchemeModel, shaCommit,
      shaVerify, encodeBid, willRevealReal, ParticipantId.tieRank, max_def]
    exact fun hh => absurd hh (List.cons_ne_nil _ _)

/-- C4 witness: the resolution theorem applied at the concrete run with
real bids [15, 9, 11], no false bids and reserve 10, extracting the
concrete outcome (winner real 0, payment 11). -/
theorem second_price_resolution_witness :
    runAuction (shaSchemeModel hashC) 10 1 [15, 9, 11] [] none 0 =
      some ⟨10, 1, some (.real 0), 15, 11, 0, 0, 0,
        [(.real 0, 15), (.real 1, 9), (.real 2, 11)]⟩ :=
  (second_price_resolution (shaSchemeModel hashC) 10 1 [15, 9, 11] [] none 0
    ⟨10, 1, some (.real 0), 15, 11, 0, 0, 0,
     [(.real 0, 15), (.real 1, 9), (.real 2, 11)]⟩
    (by
      norm_num [runAuction, commitRealRecords, commitFalseRecords,
        revealPhase, finishOutcome, selectHighest, hsStep, shaSchemeModel,
        shaCommit, shaVerify, encodeBid, willRevealReal,
        ParticipantId.tieRank, max_def]
      exact fun hh => absurd hh (List.cons_ne_nil _ _))
    (by simp)).2

/-- C5 counterexample: the tie-break rank of real buyer 49999 is 50000,
equal to — not below — the rank of shill bid 0, so real buyers are not
universally ranked ahead of shill bids. -/
theorem tie_rank_counterexample :
    ¬ ((ParticipantId.real 49999).tieRank <
        (ParticipantId.shill 0).tieRank) := by
  decide

/-- C5 (amended): the tie-break ranks order the Auctioneer lowest, real
buyers by ascending index, shill bids by ascending index, and every real
buyer of index below 49999 ahead of every shill bid (the code offsets
shill ranks by the constant 50000, so real indices from 49999 up collide
with or exceed shill ranks); ties among equal highest valid bids are won
by the participant with the lowest tie-rank. -/
theorem tie_rank_order :
    (∀ i : ℕ, ParticipantId.auctioneer.tieRank <
      (ParticipantId.real i).tieRank) ∧
    (∀ j : ℕ, ParticipantId.auctioneer.tieRank <
      (ParticipantId.shill j).tieRank) ∧
    (∀ i j : ℕ, i < j → (ParticipantId.real i).tieRank <
      (ParticipantId.real j).tieRank) ∧
    (∀ i j : ℕ, i < j → (ParticipantId.shill i).tieRank <
      (ParticipantId.shill j).tieRank) ∧
    (∀ i j : ℕ, i < 49999 → (ParticipantId.real i).tieRank <
      (ParticipantId.shill j).tieRank) ∧
    (∀ (S : Scheme) (res coll : ℚ) (vals : List ℚ) (fbs : List FalseBid)
      (rr : Option (List Bool)) (rng : ℕ) (out : AuctionOutcome)
      (w : ParticipantId),
      runAuction S res coll vals fbs rr rng = some out →
      out.winner = some w →
      (w, out.winningBid) ∈ out.validBids ∧
      ∀ p ∈ out.validBids, p.2 = out.winningBid →
        w.tieRank ≤ p.1.tieRank) := by
  refine ⟨?_, ?_, ?_, ?_, ?_, ?_⟩
  · intro i; simp [ParticipantId.tieRank]
  · intro j; simp [ParticipantId.tieRank]
  · intro i j hij; simp only [ParticipantId.tieRank]; omega
  · intro i j hij; simp only [ParticipantId.tieRank]; omega
  · intro i j hi; simp only [ParticipantId.tieRank]; omega
  · intro S res coll vals fbs rr rng out w h hw
    obtain ⟨vb, inv, hlen, hinv, rfl⟩ := runAuction_shape S res coll vals
      fbs rr rng out h
    rw [finishOutcome_validBids]
    by_cases hne : vb = []
    · exfalso
      subst hne
      have hsel : selectHighest ([] : List (ParticipantId × ℚ)) =
          (none, none) := rfl
      simp [finishOutcome, hsel] at hw
    · obtain ⟨w0, h1, h2, h3, h4⟩ := selectHighest_spec vb hne
      have hsel : selectHighest vb = (some (w0, listMax (vb.map Prod.snd)),
          if vb.length ≤ 1 then none
          else some (secondHighest (vb.map Prod.snd))) := by
        rw [← h1, ← h4]
      by_cases hres : res < listMax (vb.map Prod.snd)
      · have hwin : (finishOutcome res coll vb inv).winner = some w0 := by
          simp [finishOutcome, hsel, if_pos hres]
        have hbid : (finishOutcome res coll vb inv).winningBid =
            listMax (vb.map Prod.snd) := by
          simp [finishOutcome, hsel, if_pos hres]
        rw [hwin] at hw
        injection hw with hw
        subst hw
        rw [hbid]
        exact ⟨h2, h3⟩
      · exfalso
        have hwin : (finishOutcome res coll vb inv).winner = none := by
          simp [finishOutcome, hsel, if_neg hres]
        rw [hwin] at hw
        cases hw

/-- C5 witness: the rank ordering applied at concrete indices — real buyer
0 is ranked ahead of shill bid 1. -/
theorem tie_rank_order_witness :
    0 < 49999 ∧ (ParticipantId.real 0).tieRank <
      (ParticipantId.shill 1).tieRank :=
  ⟨by decide, tie_rank_order.2.2.2.2.1 0 1 (by decide)⟩

/-- C10: every produced outcome conserves collateral: transferred plus
forfeited-to-auctioneer equals the uniform collateral times the number of
committed participants outside the valid-bid set; whenever any participant
forfeits (and the collateral is nonzero) exactly one of the two fields is
nonzero; and the auctioneer penalty is always 0. -/
theorem collateral_conservation (S : Scheme) (res coll : ℚ) (vals : List ℚ)
    (fbs : List FalseBid) (rr : Option (List Bool)) (rng : ℕ)
    (out : AuctionOutcome)
    (h : runAuction S res coll vals fbs rr rng = some out) :
    out.validBids.length ≤ vals.length + fbs.length ∧
    out.transferredCollateral + out.forfeitedToAuctioneer =
      coll * ((vals.length + fbs.length - out.validBids.length : ℕ) : ℚ) ∧
    out.auctioneerPenalty = 0 ∧
    (coll ≠ 0 → out.validBids.length < vals.length + fbs.length →
      (out.transferredCollateral ≠ 0 ∧ out.forfeitedToAuctioneer = 0) ∨
      (out.forfeitedToAuctioneer ≠ 0 ∧ out.transferredCollateral = 0)) := by
  obtain ⟨vb, inv, hlen, hinv, rfl⟩ := runAuction_shape S res coll vals fbs
    rr rng out h
  rw [finishOutcome_validBids]
  refine ⟨hlen, ?_, finishOutcome_penalty res coll vb inv, ?_⟩
  · rcases finishOutcome_collateral_fields res coll vb inv with
      ⟨_, ht, hf⟩ | ⟨_, ht, hf⟩
    · rw [ht, hf, hinv]; ring
    · rw [ht, hf, hinv]; ring
  · intro hc hlt
    have hinvne : inv ≠ 0 := by
      rw [hinv]
      refine mul_ne_zero hc ?_
      have : 0 < vals.length + fbs.length - vb.length := by omega
      positivity
    rcases finishOutcome_collateral_fields res coll vb inv with
      ⟨_, ht, hf⟩ | ⟨_, ht, hf⟩
    · exact Or.inl ⟨by rw [ht]; exact hinvne, hf⟩
    · exact Or.inr ⟨by rw [hf]; exact hinvne, ht⟩

/-- C10 witness: conservation applied at the concrete run with one valid
bid and one forfeiting participant: 1 + 0 = 1 · (2 − 1). -/
theorem collateral_conservation_witness :
    (⟨10, 1, none, 5, 0, 1, 0, 0, [(.real 0, 5)]⟩ :
        AuctionOutcome).transferredCollateral +
      (⟨10, 1, none, 5, 0, 1, 0, 0, [(.real 0, 5)]⟩ :
        AuctionOutcome).forfeitedToAuctioneer =
      1 * ((([5] : List ℚ).length + ([⟨100, false⟩] : List FalseBid).length -
        (⟨10, 1, none, 5, 0, 1, 0, 0, [(.real 0, 5)]⟩ :
          AuctionOutcome).validBids.length : ℕ) : ℚ) :=
  (collateral_conservation (shaSchemeModel hashC) 10 1 [5] [⟨100, false⟩]
    none 0 _ (by norm_num [runAuction, commitRealRecords,
      commitFalseRecords, revealPhase, finishOutcome, selectHighest,
      hsStep, shaSchemeModel, shaCommit, shaVerify, encodeBid,
      willRevealReal])).2.1

/-! ### C2: forced closure from the Reveal phase -/

lemma auditBroadcasts_err (t : PhaseTimings) :
    ∀ (l : List BroadcastEvent) (lastTs : ℕ) (e : BroadcastEvent),
    e ∈ l → violatesDeadline t e → auditBroadcasts t l lastTs ≠ .ok () := by
  intro l
  induction l with
  | nil => intro lastTs e he _; cases he
  | cons x rest ih =>
      intro lastTs e he hv
      rw [auditBroadcasts]
      by_cases hord : x.timestamp < lastTs
      · rw [if_pos hord]; simp
      · rw [if_neg hord]
        rcases List.mem_cons.mp he with rfl | hmem
        · cases hm : e.message with
          | commitmentPublished =>
              simp only [violatesDeadline, hm] at hv
              simp [hm, hv]
          | revealPublished b =>
              simp only [violatesDeadline, hm] at hv
              simp [hm, hv]
          | timeout ph tg =>
              cases ph with
              | commit =>
                  simp only [violatesDeadline, hm] at hv
                  simp [hm, hv]
              | reveal =>
                  simp only [violatesDeadline, hm] at hv
                  simp [hm, hv]
              | resolved =>
                  simp only [violatesDeadline, hm] at hv
                  simp [hm, hv]
          | phaseTransition ph r =>
              cases ph with
              | commit =>
                  simp only [violatesDeadline, hm] at hv
              | reveal =>
                  simp only [violatesDeadline, hm] at hv
                  simp [hm, hv]
              | resolved =>
                  simp only [violatesDeadline, hm] at hv
                  simp [hm, hv]
        · cases hm : x.message with
          | commitmentPublished =>
              by_cases hd : t.commitDeadline < x.timestamp
              · simp [hm, hd]
              · simp only [hm, if_neg hd]
                exact ih x.timestamp e hmem hv
          | revealPublished b =>
              by_cases hd : t.revealDeadline < x.timestamp
              · simp [hm, hd]
              · simp only [hm, if_neg hd]
                exact ih x.timestamp e hmem hv
          | timeout ph tg =>
              cases ph with
              | commit =>
                  by_cases hd : x.timestamp < t.commitDeadline
                  · simp [hm, hd]
                  · simp only [hm]
                    rw [if_neg hd]
                    exact ih x.timestamp e hmem hv
              | reveal =>
                  by_cases hd : x.timestamp < t.revealDeadline
                  · simp [hm, hd]
                  · simp only [hm]
                    rw [if_neg hd]
                    exact ih x.timestamp e hmem hv
              | resolved =>
                  by_cases hd : x.timestamp < t.revealDeadline
                  · simp [hm, hd]
                  · simp only [hm]
                    rw [if_neg hd]
                    exact ih x.timestamp e hmem hv
          | phaseTransition ph r =>
              cases ph with
              | commit =>
                  simp only [hm]
                  exact ih x.timestamp e hmem hv
              | reveal =>
                  by_cases hd : x.timestamp < t.commitDeadline
                  · simp [hm, hd]
                  · simp only [hm]
                    rw [if_neg hd]
                    exact ih x.timestamp e hmem hv
              | resolved =>
                  by_cases hd : x.timestamp < t.revealDeadline
                  · simp [hm, hd]
                  · simp only [hm]
                    rw [if_neg hd]
                    exact ih x.timestamp e hmem hv

lemma auditTranscript_not_ok (S : Scheme) (tr : Transcript)
    (e : BroadcastEvent) (he : e ∈ tr.broadcasts)
    (hv : violatesDeadline tr.timings e) :
    ∀ r, auditTranscript S tr ≠ some (.ok r) := by
  intro r
  rw [auditTranscript]
  split
  · simp
  · split
    · simp
    · split
      · simp
      · split
        · simp
        · simp
        · split
          · simp
          · rename_i hb
            exact absurd hb
              (auditBroadcasts_err tr.timings tr.broadcasts 0 e he hv)

lemma recordTimeouts_fields :
    ∀ (missing : List ParticipantId) (s : Session),
    (recordTimeouts s missing).schedule = s.schedule ∧
    (recordTimeouts s missing).currentTime = s.currentTime ∧
    (recordTimeouts s missing).tCommitments = s.tCommitments ∧
    ∃ tl, (recordTimeouts s missing).broadcasts = s.broadcasts ++ tl := by
  intro missing
  induction missing with
  | nil =>
      intro s
      exact ⟨rfl, rfl, rfl, [], by simp [recordTimeouts]⟩
  | cons pid rest ih =>
      intro s
      have hstep : recordTimeouts s (pid :: rest) =
          recordTimeouts
            (logBroadcast
              { s with tReveals := s.tReveals ++ [⟨pid, false, none, s.currentTime⟩] }
              .auctioneer (.timeout .reveal pid)) rest := by
        rw [recordTimeouts, recordTimeouts, List.foldl_cons]
      rw [hstep]
      obtain ⟨h1, h2, h3, tl, h4⟩ := ih _
      refine ⟨by rw [h1]; rfl, by rw [h2]; rfl, by rw [h3]; rfl,
        ⟨s.currentTime, .auctioneer, .timeout .reveal pid⟩ :: tl, ?_⟩
      rw [h4]
      simp [logBroadcast]

lemma advanceTo_cases (s : Session) (now : ℕ) (s' : Session)
    (h : advanceTo s now = .ok s') :
    s'.currentTime = now ∧ s'.schedule = s.schedule ∧
    s'.commitments = s.commitments ∧ s'.broadcasts.length ≥ s.broadcasts.length ∧
    ((s.phase = .commit ∧ s'.phase = .commit ∧
        now < s.schedule.commitDeadline) ∨
     (s.phase = .commit ∧ s'.phase = .reveal ∧
        s.schedule.commitDeadline ≤ now ∧
        now < s.schedule.revealDeadline ∧
        s'.broadcasts = s.broadcasts ++
          [⟨now, .auctioneer, .phaseTransition .reveal .deadline⟩]) ∨
     s'.phase = .resolved ∨
     (s.phase = .reveal ∧ s'.phase = .reveal ∧
        now < s.schedule.revealDeadline ∧ s'.broadcasts = s.broadcasts)) := by
  by_cases hn : now < s.currentTime
  · rw [advanceTo, if_pos hn] at h
    cases h
  · rw [advanceTo, if_neg hn] at h
    cases hp : s.phase with
    | commit =>
        by_cases hcd : s.schedule.commitDeadline ≤ now
        · by_cases hrd : s.schedule.revealDeadline ≤ now
          · simp [hp, hcd, hrd, transitionToPhase, logBroadcast] at h
            subst h
            refine ⟨by simp, by simp, by simp, by simp,
              Or.inr (Or.inr (Or.inl (by simp)))⟩
          · simp [hp, hcd, hrd, transitionToPhase, logBroadcast] at h
            subst h
            refine ⟨by simp, by simp, by simp, by simp,
              Or.inr (Or.inl ⟨rfl, by simp, hcd, lt_of_not_le hrd, by simp⟩)⟩
        · simp [hp, hcd, transitionToPhase, logBroadcast] at h
          subst h
          exact ⟨by simp, by simp, by simp, by simp,
            Or.inl ⟨rfl, by simp, lt_of_not_le hcd⟩⟩
    | reveal =>
        by_cases hrd : s.schedule.revealDeadline ≤ now
        · simp [hp, hrd, transitionToPhase, logBroadcast] at h
          subst h
          refine ⟨by simp, by simp, by simp, by simp,
            Or.inr (Or.inr (Or.inl (by simp)))⟩
        · simp [hp, hrd, transitionToPhase, logBroadcast] at h
          subst h
          exact ⟨by simp, by simp, by simp, by simp,
            Or.inr (Or.inr (Or.inr ⟨rfl, by simp, lt_of_not_le hrd, by simp⟩))⟩
    | resolved =>
        simp [hp, transitionToPhase, logBroadcast] at h
        subst h
        exact ⟨by simp, by simp, by simp, by simp,
          Or.inr (Or.inr (Or.inl (by simp)))⟩

lemma commitInternal_ok (S : Scheme) (s : Session) (id : ParticipantId)
    (bid coll : ℚ) (wr : Bool) (s' : Session)
    (h : commitInternal S s id bid coll wr = some (.ok s')) :
    s.phase = .commit ∧ s.currentTime < s.schedule.commitDeadline ∧
    s'.phase = s.phase ∧ s'.currentTime = s.currentTime ∧
    s'.schedule = s.schedule ∧ s'.commitments ≠ [] ∧
    (∃ tl, s'.broadcasts = s.broadcasts ++ tl) := by
  by_cases hp : s.phase = .commit
  swap
  · rw [commitInternal, if_pos hp] at h
    simp at h
  · by_cases hd : s.schedule.commitDeadline ≤ s.currentTime
    · rw [commitInternal, if_neg (by simp [hp]), if_pos hd] at h
      simp at h
    · by_cases hdup : s.commitments.any (fun r => r.id = id) = true
      · rw [commitInternal, if_neg (by simp [hp]), if_neg hd,
          if_pos hdup] at h
        simp at h
      · rw [commitInternal, if_neg (by simp [hp]), if_neg hd,
          if_neg hdup] at h
        cases hc : S.commit bid s.rng with
        | none => rw [hc] at h; cases h
        | some co =>
            rw [hc] at h
            simp only [logBroadcast, Option.some.injEq,
              Except.ok.injEq] at h
            subst h
            refine ⟨hp, lt_of_not_le hd, by rw [hp], rfl, rfl, by simp, ?_⟩
            exact ⟨[⟨s.currentTime, id, .commitmentPublished⟩], by simp⟩

lemma endCommitPhase_ok (s s' : Session) (h : endCommitPhase s = .ok s') :
    s.phase = .commit ∧ s'.phase = .reveal ∧
    s'.currentTime = s.currentTime ∧ s'.schedule = s.schedule ∧
    s'.commitments = s.commitments ∧
    s'.broadcasts = s.broadcasts ++
      [⟨s.currentTime, .auctioneer, .phaseTransition .reveal .manual⟩] := by
  by_cases hp : s.phase = .commit
  swap
  · rw [endCommitPhase, if_pos hp] at h
    cases h
  · rw [endCommitPhase, if_neg (by simp [hp])] at h
    simp only [transitionToPhase, hp, logBroadcast, Except.ok.injEq] at h
    subst h
    exact ⟨hp, rfl, rfl, rfl, rfl, rfl⟩

lemma revealOp_ok (S : Scheme) (s : Session) (id : ParticipantId)
    (s' : Session) (h : revealOp S s id = some (.ok s')) :
    s.phase = .reveal ∧ s.currentTime < s.schedule.revealDeadline ∧
    s'.phase = s.phase ∧ s'.currentTime = s.currentTime ∧
    s'.schedule = s.schedule ∧ s'.commitments = s.commitments ∧
    (∃ tl, s'.broadcasts = s.broadcasts ++ tl) := by
  by_cases hp : s.phase = .reveal
  swap
  · rw [revealOp, if_pos hp] at h
    simp at h
  · by_cases hd : s.schedule.revealDeadline ≤ s.currentTime
    · rw [revealOp, if_neg (by simp [hp]), if_pos hd] at h
      simp at h
    · rw [revealOp, if_neg (by simp [hp]), if_neg hd] at h
      cases hf : s.commitments.find? (fun r => r.id = id) with
      | none => rw [hf] at h; simp at h
      | some rec =>
          simp only [hf] at h
          by_cases hdup : s.tReveals.any (fun r => r.participant = id) = true
          · rw [if_pos hdup] at h
            simp at h
          · rw [if_neg hdup] at h
            cases hv : S.verify rec.commitment rec.opening with
            | none => rw [hv] at h; cases h
            | some ok =>
                rw [hv] at h
                simp only [logBroadcast, Option.some.injEq,
                  Except.ok.injEq] at h
                subst h
                exact ⟨hp, lt_of_not_le hd, by rw [hp], rfl, rfl, rfl,
                  ⟨[⟨s.currentTime, rec.id, .revealPublished ok⟩], by simp⟩⟩

lemma reachable_inv (S : Scheme) (s : Session) (h : Reachable S s) :
    SessionInv s := by
  induction h with
  | init schedule seed reserve collateralFn =>
      refine ⟨fun _ => Or.inr rfl, fun hc => absurd rfl hc, fun hpr _ => ?_⟩
      simp [mkSession] at hpr
  | advance s now s' hr hstep ih =>
      obtain ⟨ht, hsch, hcomm, _, hcases⟩ := advanceTo_cases s now s' hstep
      obtain ⟨iA, iB, iC⟩ := ih
      refine ⟨?_, ?_, ?_⟩
      · intro hp'
        rcases hcases with ⟨_, _, hlt⟩ | ⟨_, hp2, _⟩ | hp2 | ⟨_, hp2, _⟩
        · left; rw [ht, hsch]; exact hlt
        · exact absurd (hp'.symm.trans hp2) (by simp)
        · exact absurd (hp'.symm.trans hp2) (by simp)
        · exact absurd (hp'.symm.trans hp2) (by simp)
      · intro hc'
        rw [hcomm] at hc'
        rw [hsch]
        exact iB hc'
      · intro hp' hc'
        rcases hcases with ⟨_, hp2, _⟩ | ⟨hsp, _, hcd, hrd, hbr⟩ | hp2 |
          ⟨hsp, _, hrd, hbr⟩
        · exact absurd (hp'.symm.trans hp2) (by simp)
        · left; rw [ht, hsch]; exact hrd
        · exact absurd (hp'.symm.trans hp2) (by simp)
        · left; rw [ht, hsch]; exact hrd
  | commitReal s i bid collateral s' hr hstep ih =>
      obtain ⟨hp, hd, hp', ht, hsch, hcne, tl, hbr⟩ :=
        commitInternal_ok S s (.real i) bid collateral true s' hstep
      obtain ⟨iA, iB, iC⟩ := ih
      refine ⟨?_, ?_, ?_⟩
      · intro _
        left
        rw [ht, hsch]
        exact hd
      · intro _
        rw [hsch]
        omega
      · intro hrev _
        rw [hp', hp] at hrev
        cases hrev
  | commitFalse s j bid collateral reveal s' hr hstep ih =>
      obtain ⟨hp, hd, hp', ht, hsch, hcne, tl, hbr⟩ :=
        commitInternal_ok S s (.shill j) bid collateral reveal s' hstep
      obtain ⟨iA, iB, iC⟩ := ih
      refine ⟨?_, ?_, ?_⟩
      · intro _
        left
        rw [ht, hsch]
        exact hd
      · intro _
        rw [hsch]
        omega
      · intro hrev _
        rw [hp', hp] at hrev
        cases hrev
  | endCommit s s' hr hstep ih =>
      obtain ⟨hp, hp', ht, hsch, hcomm, hbr⟩ := endCommitPhase_ok s s' hstep
      obtain ⟨iA, iB, iC⟩ := ih
      refine ⟨?_, ?_, ?_⟩
      · intro hc
        rw [hp'] at hc
        cases hc
      · intro hc'
        rw [hcomm] at hc'
        rw [hsch]
        exact iB hc'
      · intro _ hc'
        rw [hcomm] at hc'
        have hcd := iB hc'
        have htlt : s.currentTime < s.schedule.commitDeadline := by
          rcases iA hp with hlt | hz
          · exact hlt
          · omega
        right
        refine ⟨⟨s.currentTime, .auctioneer, .phaseTransition .reveal .manual⟩,
          ?_, ⟨.manual, rfl⟩, ?_⟩
        · rw [hbr]
          exact List.mem_append_right _ (by simp)
        · rw [hsch]
          exact htlt
  | reveal s id s' hr hstep ih =>
      obtain ⟨hp, hd, hp', ht, hsch, hcomm, tl, hbr⟩ :=
        revealOp_ok S s id s' hstep
      refine ⟨?_, ?_, ?_⟩
      · intro hc
        rw [hp', hp] at hc
        cases hc
      · intro hc'
        rw [hcomm] at hc'
        rw [hsch]
        exact ih.2.1 hc'
      · intro _ _
        left
        rw [ht, hsch]
        exact hd

lemma recordTimeouts_mem_broadcasts (s : Session)
    (missing : List ParticipantId) (ev : BroadcastEvent)
    (h : ev ∈ s.broadcasts) :
    ev ∈ (recordTimeouts s missing).broadcasts := by
  obtain ⟨-, -, -, tl, hb⟩ := recordTimeouts_fields missing s
  rw [hb]
  exact List.mem_append_left _ h

/-- C2: in every session state reachable through the public operations that
is in the Reveal phase and holds at least one commitment,
`end_reveal_and_resolve` never returns `Ok`: the forced-resolution
transition it logs is stamped with the session's current time, which is
before the reveal deadline (or else the Reveal transition already on record
was stamped before the commit deadline), so the final audit necessarily
reports a `DeadlineViolation` and the call returns `Err(AuditFailure)`. -/
theorem end_reveal_from_reveal_never_ok (S : Scheme) (s : Session) (rngE : ℕ)
    (hr : Reachable S s) (hp : s.phase = .reveal) (hc : s.commitments ≠ []) :
    isOkResult (endRevealAndResolve S s rngE) = false := by
  obtain ⟨-, -, hinv⟩ := reachable_inv S s hr
  have hviol : ∃ ev ∈ s.broadcasts ++
      [⟨s.currentTime, .auctioneer, .phaseTransition .resolved .manual⟩],
      violatesDeadline s.schedule ev := by
    rcases hinv hp hc with hlt | ⟨e, hmem, ⟨r, hmsg⟩, hts⟩
    · refine ⟨⟨s.currentTime, .auctioneer, .phaseTransition .resolved .manual⟩,
        List.mem_append_right _ (by simp), ?_⟩
      simp only [violatesDeadline]
      exact hlt
    · refine ⟨e, List.mem_append_left _ hmem, ?_⟩
      simp only [violatesDeadline, hmsg]
      exact hts
  obtain ⟨ev, hevmem, hevviol⟩ := hviol
  have htp : transitionToPhase s .resolved .manual =
      .ok (logBroadcast { s with phase := .resolved } .auctioneer
        (.phaseTransition .resolved .manual)) := by
    simp [transitionToPhase, hp]
  rw [endRevealAndResolve, if_neg (by simp [hp])]
  simp only [htp]
  split
  · rfl
  · split
    · rfl
    · rfl
    · rename_i haud
      exact absurd haud
        (auditTranscript_not_ok S _ ev
          (recordTimeouts_mem_broadcasts _ _ ev hevmem) hevviol ())

/-- C2 witness: the theorem applied to the concrete reachable Reveal state
obtained by committing bid 7 with collateral 1 at time 0 under the schedule
(commit deadline 2, reveal deadline 4) and advancing the clock to 2. -/
theorem end_reveal_never_ok_witness :
    isOkResult (endRevealAndResolve (shaSchemeModel hashC)
      sampleRevealSession 0) = false :=
  end_reveal_from_reveal_never_ok (shaSchemeModel hashC) sampleRevealSession 0
    (Reachable.advance sampleCommitSession 2 sampleRevealSession
      (Reachable.commitReal (mkSession ⟨2, 4⟩ 0 10 (fun _ => 1)) 0 7 1
        sampleCommitSession
        (Reachable.init ⟨2, 4⟩ 0 10 (fun _ => 1))
        (by norm_num [commitRealOp, commitInternal, mkSession, shaSchemeModel,
          shaCommit, encodeBid, hashC, logBroadcast, sampleCommitSession,
          BID_SCALE, round_eq]))
      (by norm_num [advanceTo, sampleCommitSession, sampleRevealSession,
        transitionToPhase, logBroadcast]))
    rfl
    (by simp [sampleRevealSession])

end BroadcastDRA
